import Mathlib

/-!
Shallow embedding of the `compute-graph` Rust crate (graph builder, compiler,
executor) and proofs of the specification claims.

Modelling conventions:
* `TypeId` values (`std::any::TypeId`) are modelled as natural numbers; the
  distinguished "no input" identity `TypeId::of::<()>` is `unitTy = 0`.
* Type-erased boxed values (`Box<dyn Any>`) are modelled by an abstract value
  type `V` together with a typing map `tyOf : V → TyId`; a downcast to type
  identity `t` succeeds on `v` exactly when `tyOf v = t`.
* A node capability (`Box<dyn InnerCompute>`, obtained from a `Compute`
  implementation) is a record of its input/output type identities, the
  human-readable names of those types (`std::any::type_name`), the default
  output used to initialise scratch storage (`init_output`), and the typed
  compute function.  The typed function returns `Option V`: `none` models a
  panic inside the user-supplied capability body (e.g. an out-of-bounds index).
* The `SlotMap` of nodes is modelled as an association list paired with a
  fresh-key counter: slotmap keys are versioned, so a key is never reused
  after removal, which is exactly the behaviour of ever-increasing `Nat` keys.
* Rust panics (slotmap indexing with a stale key, `Option::unwrap`,
  `verify_graphid` failure, `RefCell` borrow conflicts) are modelled by a
  distinguished `panic` outcome, kept separate from the `Result::Err` values
  the code returns.
* Mutating builder methods take `&mut self`; they are embedded as functions
  returning the (result, updated graph) pair, the error/panic branches
  returning the graph exactly as the source leaves it.
-/

namespace CG

/-- Model of `std::any::TypeId`: an abstract type identity token. -/
abbrev TyId := Nat

/-- Model of `TypeId::of::<()>`, the "no explicit input" sentinel. -/
def unitTy : TyId := 0

/-- Model of a node capability: the data reachable through the
`InnerCompute` trait object boxed inside a node (`graph.rs` line 12),
together with the type names `insert_node` records in the registry. -/
structure Cap (V : Type) where
  inTy : TyId
  outTy : TyId
  inTyName : String
  outTyName : String
  initOut : V
  run : List V → Option V

/-- Well-formedness of a capability with respect to the typing map: the
guarantees the Rust trait system provides for any `Compute` implementation
(`init_output` boxes an `Out`-typed default, and `compute`, which is only
ever invoked on inputs downcast to the `In` type, returns an `Out`). -/
def CapWF {V : Type} (tyOf : V → TyId) (c : Cap V) : Prop :=
  tyOf c.initOut = c.outTy ∧
    ∀ args r, (∀ a ∈ args, tyOf a = c.inTy) → c.run args = some r →
      tyOf r = c.outTy

/-- Model of `Node` (graph.rs lines 8-14). -/
structure Node (V : Type) where
  name : String
  inputs : List Nat
  inner : Cap V
  connected_to_input : Bool

/-- Model of `NodeHandle` (graph.rs lines 16-20). -/
structure NodeHandle where
  key : Nat
  graph_id : Nat
deriving DecidableEq

/-- Model of `Graph` (graph.rs lines 30-36): the slotmap is an association
list with a fresh-key counter (`nextKey`), keys being never reused. -/
structure Graph (V : Type) where
  type_names : List (TyId × String)
  nodes : List (Nat × Node V)
  nextKey : Nat
  output_node : Option Nat
  id : Nat

/-- Model of `ComputeGraphErrors` (graph.rs lines 368-376). -/
inductive ComputeGraphErrors where
  | NoInputNodes
  | NoOutputNode
  | NodeMissing
  | IncompatibleNewNode (msg : String)
  | GraphCycle (name : String)
  | WrongTypes (msg : String)
deriving DecidableEq

/-- Outcome of an operation on the builder: a returned `Ok` value, a
returned recoverable error, or a process panic. -/
inductive POut (α : Type) where
  | ok (a : α)
  | err (e : ComputeGraphErrors)
  | panic
deriving DecidableEq

/-- Model of `ComputeGraphErrors::format_wrong_types` (graph.rs 379-389). -/
def format_wrong_types (input_name input_type output_name output_type : String) :
    ComputeGraphErrors :=
  .WrongTypes ("'" ++ input_name ++ "' input type '" ++ input_type ++
    "' does not match '" ++ output_name ++ "' output type '" ++ output_type ++ "'")

/-- Model of `ComputeGraphErrors::format_incompatible_object`
(graph.rs 390-406): one clause per mismatched slot, comma separated. -/
def format_incompatible_object (input_name : String)
    (incompatible_types : List (String × String × String)) : ComputeGraphErrors :=
  let clauses := incompatible_types.map (fun t =>
    "'" ++ t.1 ++ "'s old type '" ++ t.2.1 ++ "' != new type '" ++ t.2.2 ++ "'")
  .IncompatibleNewNode ("Can't replace '" ++ input_name ++ "' because: " ++
    String.intercalate ", " clauses)

namespace Graph

variable {V : Type}

/-- Lookup of a node by key: `self.nodes.get(key)` in slotmap terms. -/
def findNode (g : Graph V) (k : Nat) : Option (Node V) :=
  g.nodes.lookup k

/-- Whether a key still refers to a live node. -/
def IsLive (g : Graph V) (k : Nat) : Prop := (g.findNode k).isSome

instance (g : Graph V) (k : Nat) : Decidable (g.IsLive k) := by
  unfold IsLive; infer_instance

/-- Replace the node stored at a key (no-op if the key is dead). -/
def modifyNode (g : Graph V) (k : Nat) (f : Node V → Node V) : Graph V :=
  { g with nodes := g.nodes.map (fun p => if p.1 = k then (p.1, f p.2) else p) }

/-- Model of the `HashMap::insert` calls on the type-name registry. -/
def regInsert (r : List (TyId × String)) (t : TyId) (n : String) :
    List (TyId × String) :=
  (t, n) :: r.filter (fun p => p.1 ≠ t)

/-- Model of `verify_graphid` (graph.rs 357-364): `true` means panic. -/
def badId (g : Graph V) (h : NodeHandle) : Bool := h.graph_id ≠ g.id

/-- Model of `Graph::new` (graph.rs 45-55).  The source stores the address
of the slotmap as the graph id; the model takes the id as a parameter since
addresses are outside the embedding. -/
def new (gid : Nat) : Graph V :=
  { type_names := [], nodes := [], nextKey := 0, output_node := none, id := gid }

/-- Model of `Graph::insert_node` (graph.rs 57-81): registers the
capability's type names, appends a fresh node with no inputs and
`connected_to_input = true`, and returns its handle. -/
def insert_node (g : Graph V) (name : String) (c : Cap V) :
    Graph V × NodeHandle :=
  let node : Node V :=
    { name := name, inputs := [], inner := c, connected_to_input := true }
  let reg := regInsert (regInsert g.type_names c.inTy c.inTyName) c.outTy c.outTyName
  let key := g.nextKey
  ({ g with
      type_names := reg,
      nodes := g.nodes ++ [(key, node)],
      nextKey := g.nextKey + 1 },
    { key := key, graph_id := g.id })

/-- Model of `Graph::remove_node` (graph.rs 83-89): drops the slot and
strips the key from every other node's input list. -/
def remove_node (g : Graph V) (h : NodeHandle) : POut Unit × Graph V :=
  if badId g h then (.panic, g)
  else
    let kept := g.nodes.filter (fun p => p.1 ≠ h.key)
    let stripped := kept.map
      (fun p => (p.1, { p.2 with inputs := p.2.inputs.filter (fun k => k ≠ h.key) }))
    (.ok (), { g with nodes := stripped })

/-- Model of `Graph::replace_node` (graph.rs 91-138): `NodeMissing` for a
dead handle; otherwise compare both type identities, collecting one clause
per mismatched slot (old-type registry lookups are `unwrap`ed — panic when
absent — while new-type lookups fall back to `"unknown type"`); install the
new capability only when no clause was collected. -/
def replace_node (g : Graph V) (h : NodeHandle) (c : Cap V) :
    POut Unit × Graph V :=
  if badId g h then (.panic, g)
  else
    match g.findNode h.key with
    | none => (.err .NodeMissing, g)
    | some nd =>
      let inErrs : Option (List (String × String × String)) :=
        if c.inTy ≠ nd.inner.inTy then
          match g.type_names.lookup nd.inner.inTy with
          | none => none
          | some oldName =>
            some [("input", oldName, ((g.type_names.lookup c.inTy).getD "unknown type"))]
        else some []
      let outErrs : Option (List (String × String × String)) :=
        if c.outTy ≠ nd.inner.outTy then
          match g.type_names.lookup nd.inner.outTy with
          | none => none
          | some oldName =>
            some [("output", oldName, ((g.type_names.lookup c.outTy).getD "unknown type"))]
        else some []
      match inErrs, outErrs with
      | some ie, some oe =>
        match ie ++ oe with
        | [] => (.ok (), g.modifyNode h.key (fun nd => { nd with inner := c }))
        | es => (.err (format_incompatible_object nd.name es), g)
      | _, _ => (.panic, g)

/-- Model of `Graph::_get_name` (graph.rs 349-355). -/
def get_name_key (g : Graph V) (k : Nat) : POut String :=
  match g.findNode k with
  | none => .err .NodeMissing
  | some nd => .ok nd.name

/-- Model of `Graph::get_name` (graph.rs 195-199). -/
def get_name (g : Graph V) (h : NodeHandle) : POut String :=
  if badId g h then .panic else g.get_name_key h.key

/-- Model of `Graph::add_input` (graph.rs 160-186): both nodes are fetched
by slotmap indexing (a stale key panics); when the destination's input type
identity equals the source's output type identity, the source key is
appended to the destination's inputs and the external-input flag, if
currently set, is cleared; otherwise a `WrongTypes` error is formatted from
registry lookups (`unwrap`ed — panic when absent). -/
def add_input (g : Graph V) (h hin : NodeHandle) : POut Unit × Graph V :=
  if badId g h ∨ badId g hin then (.panic, g)
  else
    match g.findNode h.key, g.findNode hin.key with
    | some nd, some ndIn =>
      if nd.inner.inTy = ndIn.inner.outTy then
        (.ok (), g.modifyNode h.key (fun n =>
          { n with
              inputs := n.inputs ++ [hin.key],
              connected_to_input :=
                if n.connected_to_input then false else n.connected_to_input }))
      else
        match g.type_names.lookup nd.inner.inTy, g.type_names.lookup ndIn.inner.outTy with
        | some tin, some tout =>
          (.err (format_wrong_types nd.name tin ndIn.name tout), g)
        | _, _ => (.panic, g)
    | _, _ => (.panic, g)

/-- Model of `Graph::remove_input` (graph.rs 188-193). -/
def remove_input (g : Graph V) (h hin : NodeHandle) : POut Unit × Graph V :=
  if badId g h then (.panic, g)
  else
    (.ok (), g.modifyNode h.key (fun n =>
      { n with inputs := n.inputs.filter (fun k => k ≠ hin.key) }))

/-- Model of `Graph::set_output_node` (graph.rs 205-208). -/
def set_output_node (g : Graph V) (h : NodeHandle) : POut Unit × Graph V :=
  if badId g h then (.panic, g)
  else (.ok (), { g with output_node := some h.key })

/-- Model of `Graph::connect_to_input` (graph.rs 210-215). -/
def connect_to_input (g : Graph V) (h : NodeHandle) : POut Unit × Graph V :=
  if badId g h then (.panic, g)
  else (.ok (), g.modifyNode h.key (fun n => { n with connected_to_input := true }))

/-- Model of `Graph::disconnect_from_input` (graph.rs 217-222). -/
def disconnect_from_input (g : Graph V) (h : NodeHandle) : POut Unit × Graph V :=
  if badId g h then (.panic, g)
  else (.ok (), g.modifyNode h.key (fun n => { n with connected_to_input := false }))

end Graph

/-- Result of the recursive `toposort_visit` walk: the updated sorted list
and recursion-stack set on success, a detected cycle (carrying the node
name), a panic (stale key `unwrap`), or exhausted modelling fuel. -/
inductive TopoRes where
  | ok (sorted : List Nat) (temp : List Nat)
  | cycle (name : String)
  | panic
  | fuelOut
deriving DecidableEq

namespace Graph

variable {V : Type}

/-- The `for input_node in …inputs` loop inside `toposort_visit`
(graph.rs 340-342), threading the sorted list and recursion stack; the
recursive visit of one input is abstracted as `visit`. -/
def visit_inputs (visit : Nat → List Nat → List Nat → TopoRes) :
    List Nat → List Nat → List Nat → TopoRes
  | [], sorted, temp => .ok sorted temp
  | k :: ks, sorted, temp =>
    match visit k sorted temp with
    | .ok s t => visit_inputs visit ks s t
    | r => r

/-- One unfolding of the body of `Graph::toposort_visit` (graph.rs
322-347), with the recursive call abstracted as `visit`: skip a node
already ordered; fail with a cycle error (naming the node) when it is on
the recursion stack; otherwise push it on the stack, visit its inputs,
pop it and append it to the order.  Fetching the node's input list (and
its name for the cycle error) `unwrap`s the slotmap lookup — a stale key
panics. -/
def tvStep (g : Graph V) (visit : Nat → List Nat → List Nat → TopoRes)
    (node : Nat) (sorted : List Nat) (temp : List Nat) : TopoRes :=
  if node ∈ sorted then .ok sorted temp
  else if node ∈ temp then
    match g.findNode node with
    | some nd => .cycle nd.name
    | none => .panic
  else
    match g.findNode node with
    | none => .panic
    | some nd =>
      match visit_inputs visit nd.inputs sorted (node :: temp) with
      | .ok s t => .ok (s ++ [node]) (t.erase node)
      | r => r

/-- Model of `Graph::toposort_visit` (graph.rs 322-347).  The Rust
recursion is bounded in depth by the number of live nodes (every frame
pushes a distinct live node onto `temp_list` before recursing); the
embedding makes that explicit with a fuel parameter decreasing with
recursion depth, and `compute_order` supplies enough fuel for `fuelOut` to
be unreachable (proved below). -/
def toposort_visit (g : Graph V) : Nat → Nat → List Nat → List Nat → TopoRes
  | 0 => fun _ _ _ => .fuelOut
  | fuel + 1 => tvStep g (g.toposort_visit fuel)

/-- Fuel with which `compute_order` runs the DFS: one more than the number
of live nodes, which is always sufficient (lemma `toposort_no_fuelOut`). -/
def fuelFor (g : Graph V) : Nat := g.nodes.length + 1

/-- Model of `Graph::compute_order` (graph.rs 315-320). -/
def compute_order (g : Graph V) (node : Nat) : POut (List Nat) :=
  match toposort_visit g (fuelFor g) node [] [] with
  | .ok sorted _ => .ok sorted
  | .cycle n => .err (.GraphCycle n)
  | .panic => .panic
  | .fuelOut => .panic

end Graph

/-- Model of `ComputeNode` (com_graph.rs 6-11). -/
structure ComputeNode (V : Type) where
  connected_to_input : Bool
  inputs : List Nat
  func : Cap V

/-- Model of `ComputeGraph<In, Out>` (com_graph.rs 13-18); the phantom type
parameters are carried as type identities fixed at build time. -/
structure ComputeGraphM (V : Type) where
  outputs : List V
  nodes : List (ComputeNode V)
  inTyPh : TyId
  outTyPh : TyId

/-- Model of `ComputeGraph::new` (com_graph.rs 20-32): scratch cells are
initialised to each capability's `init_output`. -/
def ComputeGraphM.new {V : Type} (nodes : List (ComputeNode V))
    (inTy outTy : TyId) : ComputeGraphM V :=
  { outputs := nodes.map (fun n => n.func.initOut),
    nodes := nodes, inTyPh := inTy, outTyPh := outTy }

/-- Model of `impl Clone for ComputeGraph` (com_graph.rs 70-74): the node
list is cloned and the scratch cells reset to the capability defaults. -/
def ComputeGraphM.clone {V : Type} (cg : ComputeGraphM V) : ComputeGraphM V :=
  ComputeGraphM.new cg.nodes cg.inTyPh cg.outTyPh

namespace Graph

variable {V : Type}

/-- Model of the `node_key_to_index` map built in `_build_for_node`
(graph.rs 269-273): position of a key within the dependency order (on the
success path the order is duplicate-free, so the position is unique). -/
def keyIdx (order : List Nat) (k : Nat) : Option Nat :=
  if k ∈ order then some (order.indexOf k) else none

/-- Model of the per-node loop of `_build_for_node` (graph.rs 275-306):
counts nodes flagged to receive the external input, type-checks flagged
nodes against the requested input type (the node's own type name lookup is
`unwrap`ed — panic when absent — the requested type falls back to
`"unknown type"`), rewrites input keys to order positions (`unwrap` —
panic when a key is not in the order), and clones the capability. -/
def build_nodes (g : Graph V) (input_tyid : TyId) (kidx : Nat → Option Nat) :
    List Nat → POut (List (ComputeNode V) × Nat)
  | [] => .ok ([], 0)
  | k :: ks =>
    match g.findNode k with
    | none => .panic
    | some nd =>
      if nd.connected_to_input ∧ nd.inner.inTy ≠ unitTy ∧ nd.inner.inTy ≠ input_tyid then
        match g.type_names.lookup nd.inner.inTy with
        | none => .panic
        | some tn =>
          .err (format_wrong_types nd.name tn "compute input"
            ((g.type_names.lookup input_tyid).getD "unknown type"))
      else
        match nd.inputs.mapM kidx with
        | none => .panic
        | some idxs =>
          match build_nodes g input_tyid kidx ks with
          | .ok (l, c) =>
            .ok ({ connected_to_input := nd.connected_to_input,
                   inputs := idxs, func := nd.inner } :: l,
              cond nd.connected_to_input 1 0 + c)
          | .err e => .err e
          | .panic => .panic

/-- Model of `Graph::_build_for_node` (graph.rs 245-313): root fetched by
slotmap indexing (stale key panics), root output type checked against the
requested output type, dependency order computed, nodes compiled, and at
least one external-input receiver required. -/
def build_for_node_key (g : Graph V) (input_tyid output_tyid : TyId)
    (output_node_key : Nat) : POut (ComputeGraphM V) :=
  match g.findNode output_node_key with
  | none => .panic
  | some root =>
    if root.inner.outTy ≠ output_tyid then
      match g.type_names.lookup root.inner.outTy with
      | none => .panic
      | some rootTyName =>
        .err (format_wrong_types "compute output"
          ((g.type_names.lookup output_tyid).getD "unknown type") root.name rootTyName)
    else
      match g.compute_order output_node_key with
      | .err e => .err e
      | .panic => .panic
      | .ok order =>
        match g.build_nodes input_tyid (keyIdx order) order with
        | .err e => .err e
        | .panic => .panic
        | .ok (ns, num) =>
          if num = 0 then .err .NoInputNodes
          else .ok (ComputeGraphM.new ns input_tyid output_tyid)

/-- Model of `Graph::build` (graph.rs 224-231).  The receiver is `&mut
self` in the source but no branch writes to it, so the embedding returns
the graph unchanged alongside the result. -/
def build (g : Graph V) (input_tyid output_tyid : TyId) :
    POut (ComputeGraphM V) × Graph V :=
  match g.output_node with
  | none => (.err .NoOutputNode, g)
  | some k => (g.build_for_node_key input_tyid output_tyid k, g)

/-- Model of `Graph::build_for_node` (graph.rs 233-243). -/
def build_for_node (g : Graph V) (input_tyid output_tyid : TyId)
    (h : NodeHandle) : POut (ComputeGraphM V) × Graph V :=
  if badId g h then (.panic, g)
  else (g.build_for_node_key input_tyid output_tyid h.key, g)

end Graph

/-- Result of one capability invocation (`InnerCompute::inner_compute`,
compute.rs 48-55): the produced value, a panic inside the user `compute`
body, or an engine panic (a failed `Any` downcast of an input or of the
output scratch cell). -/
inductive StepRes (V : Type) where
  | ok (v : V)
  | capPanic
  | enginePanic
deriving DecidableEq

/-- Model of the blanket `InnerCompute::inner_compute` implementation
(compute.rs 48-55): downcast every input reference to the capability's
input type and the scratch cell to its output type (panicking on failure),
then run the typed `compute`. -/
def inner_compute {V : Type} (tyOf : V → TyId) (c : Cap V) (args : List V)
    (out_cell : V) : StepRes V :=
  if (∀ a ∈ args, tyOf a = c.inTy) ∧ tyOf out_cell = c.outTy then
    match c.run args with
    | some v => .ok v
    | none => .capPanic
  else .enginePanic

/-- Result of the node loop of `ComputeGraph::compute`. -/
inductive LoopRes (V : Type) where
  | done (cells : List V)
  | capPanic
  | enginePanic
deriving DecidableEq

/-- Model of the dependency gathering in `ComputeGraph::compute`
(com_graph.rs 43-50): a shared borrow of the scratch cell of each listed
position; borrowing the position currently held mutably (the node's own
cell) or indexing out of range panics. -/
def gather_deps {V : Type} (cells : List V) (i : Nat) (idxs : List Nat) :
    Option (List V) :=
  idxs.mapM (fun j => if j = i then none else cells[j]?)

/-- Result of `ComputeGraph::compute`: the final scratch state and output
value, or one of the two panic kinds. -/
inductive RunRes (V : Type) where
  | ok (cells : List V) (out : V)
  | capPanic
  | enginePanic
deriving DecidableEq

/-- Model of the node loop of `ComputeGraph::compute` (com_graph.rs
38-57): each node takes a mutable borrow of its own scratch cell, a node
of the no-input sentinel type is invoked on an empty list, any other node
on its dependencies' scratch values followed, when flagged, by the
external input; the result is written to the node's cell. -/
def run_nodes {V : Type} (tyOf : V → TyId) (input : V) :
    List (ComputeNode V) → Nat → List V → LoopRes V
  | [], _, cells => .done cells
  | n :: rest, i, cells =>
    match cells[i]? with
    | none => .enginePanic
    | some old =>
      let step : StepRes V :=
        if n.func.inTy = unitTy then
          inner_compute tyOf n.func [] old
        else
          match gather_deps cells i n.inputs with
          | none => .enginePanic
          | some deps =>
            let deps := if n.connected_to_input then deps ++ [input] else deps
            inner_compute tyOf n.func deps old
      match step with
      | .ok v => run_nodes tyOf input rest (i + 1) (cells.set i v)
      | .capPanic => .capPanic
      | .enginePanic => .enginePanic

/-- Model of `ComputeGraph::compute` (com_graph.rs 34-67): run every node
in order, then return the last cell's value downcast to the output type
(`outputs.last().unwrap()` panics on an empty pipeline, the downcast
`unwrap` panics on a type mismatch). -/
def ComputeGraphM.compute {V : Type} (tyOf : V → TyId) (cg : ComputeGraphM V)
    (input : V) : RunRes V :=
  match run_nodes tyOf input cg.nodes 0 cg.outputs with
  | .capPanic => .capPanic
  | .enginePanic => .enginePanic
  | .done cells =>
    match cells.getLast? with
    | none => .enginePanic
    | some v => if tyOf v = cg.outTyPh then .ok cells v else .enginePanic

/-- Output value of a run, when it neither panicked nor was discarded. -/
def RunRes.outVal {V : Type} : RunRes V → Option V
  | .ok _ o => some o
  | _ => none

/-- Build a pipeline and run it on one input: `some` output value exactly
when the build succeeded and the run neither panicked nor failed a cast. -/
def runBuilt {V : Type} (tyOf : V → TyId) (r : POut (ComputeGraphM V))
    (input : V) : Option V :=
  match r with
  | .ok cg => (cg.compute tyOf input).outVal
  | _ => none

/-! ### Concrete value universe for the worked examples

The examples in the source (`graph_tests::test_functionality` and the
capability kinds of `operations.rs`) only ever erase `()` and `f64`
values; every `f64` operation the examples perform stays on exactly
representable integers (42, 7, 11, and sums and products thereof), so the
float payload is modelled by exact integer arithmetic. -/

/-- Concrete erased-value universe: the unit value and floats. -/
inductive FV where
  | unit
  | f (x : Int)
deriving DecidableEq

/-- Typing map for `FV`: `TypeId::of::<()>` is `0 = unitTy`,
`TypeId::of::<f64>` is `1`. -/
def fvTy : FV → TyId
  | .unit => 0
  | .f _ => 1

/-- The type identity of `f64` in the concrete universe. -/
def floatTy : TyId := 1

/-- Extract the float payload (the typed view after a successful downcast;
only applied to values of type `floatTy`). -/
def getF : FV → Int
  | .f x => x
  | .unit => 0

/-- Model of `Constant<f64>` (operations.rs 8-18): no explicit input
(`In = ()`), emits the stored value; `init_output` is `f64::default()`. -/
def constCap (c : Int) : Cap FV :=
  { inTy := unitTy, outTy := floatTy, inTyName := "()", outTyName := "f64",
    initOut := .f 0, run := fun _ => some (.f c) }

/-- Model of `AddInputs<f64>` (operations.rs 20-41): folds `*v + acc` over
the inputs starting from `f64::default() = 0`. -/
def addCap : Cap FV :=
  { inTy := floatTy, outTy := floatTy, inTyName := "f64", outTyName := "f64",
    initOut := .f 0,
    run := fun args => some (.f (args.foldl (fun acc v => getF v + acc) 0)) }

/-- Model of `MulInputs<f64>` (operations.rs 74-91): one input is returned
unchanged, otherwise `*v * prod` is folded over the tail starting from the
head; on an empty input list the source indexes `inputs[0]` and panics,
modelled by `none`. -/
def mulCap : Cap FV :=
  { inTy := floatTy, outTy := floatTy, inTyName := "f64", outTyName := "f64",
    initOut := .f 0,
    run := fun args =>
      match args with
      | [] => none
      | [a] => some a
      | a :: rest => some (.f (rest.foldl (fun prod v => getF v * prod) (getF a))) }

/-! ### The example graph of `graph_tests::test_functionality`
(graph.rs 416-472): a `Constant(42.0)` node, an `AddInputs::<f64>` node
and a `MulInputs::<f64>` node; `mul` gets explicit input `[const]` plus
the external input, `add` gets explicit inputs `[mul, const]`; the
designated output node is `add`. -/

def gE1p : Graph FV × NodeHandle := (Graph.new 0).insert_node "the_answer" (constCap 42)

def hConst : NodeHandle := gE1p.2

def gE2p : Graph FV × NodeHandle := gE1p.1.insert_node "add" addCap

def hAdd : NodeHandle := gE2p.2

def gE3p : Graph FV × NodeHandle := gE2p.1.insert_node "mul" mulCap

def hMul : NodeHandle := gE3p.2

def gE4 : Graph FV := (gE3p.1.add_input hAdd hMul).2

def gE5 : Graph FV := (gE4.add_input hAdd hConst).2

def gE6 : Graph FV := (gE5.add_input hMul hConst).2

def gE7 : Graph FV := (gE6.connect_to_input hMul).2

/-- The fully wired example graph, output node set to `add`. -/
def gExample : Graph FV := (gE7.set_output_node hAdd).2

namespace Graph

variable {V : Type}

/-- All slot keys are below the fresh-key counter (an invariant of every
graph produced through the construction API). -/
def KeysBelow (g : Graph V) : Prop := ∀ p ∈ g.nodes, p.1 < g.nextKey

end Graph

/-! ### Further concrete scenarios used by the claims -/

/-- Graph for the C2 scenario: a constant node and an add node. -/
def c2g : Graph FV × NodeHandle := (Graph.new 0).insert_node "c" (constCap 42)

/-- The add node of the C2 scenario. -/
def c2p : Graph FV × NodeHandle := c2g.1.insert_node "a" addCap

/-- After the first `add_input(add, const)`: the flag is cleared. -/
def c2g3 : Graph FV := (c2p.1.add_input c2p.2 c2g.2).2

/-- After `connect_to_input(add)`: the flag is re-enabled. -/
def c2g4 : Graph FV := (c2g3.connect_to_input c2p.2).2

/-- Graph for the C3 scenario: one constant node, designated as output. -/
def c3p : Graph FV × NodeHandle := (Graph.new 0).insert_node "c" (constCap 42)

/-- Handle of the constant node of the C3 scenario. -/
def c3h : NodeHandle := c3p.2

/-- C3 scenario with the output node designated and then removed (removal
does not clear the output-node designation). -/
def c3gRemoved : Graph FV := (((c3p.1.set_output_node c3h).2).remove_node c3h).2

/-- First node of the C4 cycle scenario (`a`, an `AddInputs::<f64>`). -/
def c4p1 : Graph FV × NodeHandle := (Graph.new 0).insert_node "a" addCap

/-- Second node of the C4 cycle scenario (`b`, an `AddInputs::<f64>`). -/
def c4p2 : Graph FV × NodeHandle := c4p1.1.insert_node "b" addCap

/-- The C4 cyclic graph: `a` depends on `b` and `b` depends on `a`. -/
def c4gCyc : Graph FV :=
  ((c4p2.1.add_input c4p1.2 c4p2.2).2.add_input c4p2.2 c4p1.2).2

/-- The C7 scenario: a single constant node whose external-input flag has
been explicitly disconnected, leaving zero flagged nodes. -/
def c7p : Graph FV × NodeHandle := (Graph.new 0).insert_node "c" (constCap 5)

/-- The C7 graph with the only node's flag cleared. -/
def c7g : Graph FV := (c7p.1.disconnect_from_input c7p.2).2

/-- Projection of a successful build result (a fallback for the other
outcomes, used only to name concrete successfully built executors). -/
def cgOf {V : Type} (r : POut (ComputeGraphM V)) (d : ComputeGraphM V) :
    ComputeGraphM V :=
  match r with
  | .ok cg => cg
  | _ => d

/-- The executor compiled from the example graph at its designated output
node. -/
def cgExample : ComputeGraphM FV :=
  cgOf (gExample.build_for_node_key floatTy floatTy hAdd.key)
    (ComputeGraphM.new [] 0 0)

/-! ### Relations of the dependency graph and invariants -/

namespace Graph

variable {V : Type}

/-- Declared input list of a node, the empty list for a dead key. -/
def gInputs (g : Graph V) (k : Nat) : List Nat :=
  ((g.findNode k).map Node.inputs).getD []

/-- Dependency edge: from a node to one of its declared inputs. -/
def Edge (g : Graph V) (a b : Nat) : Prop := b ∈ g.gInputs a

/-- Reachability along dependency edges (the transitive input closure). -/
def Reaches (g : Graph V) : Nat → Nat → Prop := Relation.ReflTransGen g.Edge

/-- A key list is topologically ordered: every element's declared inputs
occur at strictly earlier positions. -/
def TopoOrd (g : Graph V) (s : List Nat) : Prop :=
  ∀ i (hi : i < s.length), ∀ x ∈ g.gInputs (s.get ⟨i, hi⟩), x ∈ s.take i

/-- Every dependency edge targets a live node. -/
def EdgesLive (g : Graph V) : Prop := ∀ a b, g.Edge a b → g.IsLive b

/-- Shape of the DFS recursion stack (`temp_list` plus call order):
consecutive entries are dependency edges, the newest entry first. -/
def StackChain (g : Graph V) (t : List Nat) : Prop :=
  List.Chain' (fun a b => g.Edge b a) t

/-- The node about to be visited is an input of the stack top (trivially
true for the outermost call, whose stack is empty). -/
def StackTop (g : Graph V) (t : List Nat) (node : Nat) : Prop :=
  match t with
  | [] => True
  | h :: _ => g.Edge h node

/-- Number of live keys not on the recursion stack: the quantity that
bounds the remaining recursion depth of `toposort_visit`. -/
def depthLeft (g : Graph V) (t : List Nat) : Nat :=
  ((g.nodes.map Prod.fst).filter (fun k => k ∉ t)).length

/-- Whether a key names a live node flagged to receive the external
input. -/
def flagged (g : Graph V) (k : Nat) : Bool :=
  match g.findNode k with
  | some nd => nd.connected_to_input
  | none => false

/-- What a successful `toposort_visit` call guarantees: the recursion
stack is restored, the sorted list is extended by fresh live keys not on
the stack, and topological ordering of the sorted list is preserved. -/
def VisitOk (g : Graph V) (s t s' t' : List Nat) : Prop :=
  t' = t ∧ (∃ d, s' = s ++ d ∧ d.Nodup ∧ ∀ x ∈ d, x ∉ t ∧ x ∉ s ∧ g.IsLive x) ∧
    (g.TopoOrd s → g.TopoOrd s')

end Graph

/-- Scratch cells typed according to their nodes' declared output types
(the state invariant of the executor's cell array). -/
def TypedCells {V : Type} (tyOf : V → TyId) (nodes : List (ComputeNode V))
    (cells : List V) : Prop :=
  cells.length = nodes.length ∧
    ∀ i (hc : i < cells.length) (hn : i < nodes.length),
      tyOf (cells.get ⟨i, hc⟩) = (nodes.get ⟨i, hn⟩).func.outTy

/-- Well-formedness of a compiled pipeline, as established by a successful
build from an API-built graph: as many cells as nodes and at least one
node, well-formed capabilities, cells initially typed, input positions
strictly below the consumer's own position and typed to match it, flagged
nodes typed `()` or the pipeline input type, and the final node typed to
the pipeline output type. -/
structure CGWF {V : Type} (tyOf : V → TyId) (cg : ComputeGraphM V) : Prop where
  len_eq : cg.outputs.length = cg.nodes.length
  ne_nil : cg.nodes ≠ []
  caps_wf : ∀ n ∈ cg.nodes, CapWF tyOf n.func
  cells_typed : TypedCells tyOf cg.nodes cg.outputs
  inputs_lt : ∀ i (hi : i < cg.nodes.length),
      ∀ j ∈ (cg.nodes.get ⟨i, hi⟩).inputs, j < i
  inputs_typed : ∀ i (hi : i < cg.nodes.length),
      ∀ j ∈ (cg.nodes.get ⟨i, hi⟩).inputs, ∃ (hj : j < cg.nodes.length),
        (cg.nodes.get ⟨j, hj⟩).func.outTy = (cg.nodes.get ⟨i, hi⟩).func.inTy
  flagged_ty : ∀ n ∈ cg.nodes, n.connected_to_input = true →
      n.func.inTy = unitTy ∨ n.func.inTy = cg.inTyPh
  last_ty : ∀ n, cg.nodes.getLast? = some n → n.func.outTy = cg.outTyPh

/-- Builder states reachable through the public construction API from a
fresh graph, inserting only well-formed capabilities (the guarantee the
Rust trait bounds provide); the wiring and removal rules are closed over
arbitrary handles and always take the state the operation returns. -/
inductive Built {V : Type} (tyOf : V → TyId) : Graph V → Prop where
  | new (gid : Nat) : Built tyOf (Graph.new gid)
  | insert {g : Graph V} (name : String) {c : Cap V} :
      Built tyOf g → CapWF tyOf c → Built tyOf (g.insert_node name c).1
  | remove {g : Graph V} (h : NodeHandle) :
      Built tyOf g → Built tyOf (g.remove_node h).2
  | replace {g : Graph V} (h : NodeHandle) {c : Cap V} :
      Built tyOf g → CapWF tyOf c → Built tyOf (g.replace_node h c).2
  | addInput {g : Graph V} (h hin : NodeHandle) :
      Built tyOf g → Built tyOf (g.add_input h hin).2
  | removeInput {g : Graph V} (h hin : NodeHandle) :
      Built tyOf g → Built tyOf (g.remove_input h hin).2
  | connect {g : Graph V} (h : NodeHandle) :
      Built tyOf g → Built tyOf (g.connect_to_input h).2
  | disconnect {g : Graph V} (h : NodeHandle) :
      Built tyOf g → Built tyOf (g.disconnect_from_input h).2
  | setOutput {g : Graph V} (h : NodeHandle) :
      Built tyOf g → Built tyOf (g.set_output_node h).2

/-- Structural invariant every API-built graph satisfies: fresh keys above
all stored keys, every edge targeting a live node whose output type equals
the consumer's input type, and well-formed capabilities throughout. -/
structure GraphInv {V : Type} (tyOf : V → TyId) (g : Graph V) : Prop where
  keys_below : g.KeysBelow
  edges_typed : ∀ k nd, g.findNode k = some nd → ∀ x ∈ nd.inputs,
      ∃ nd', g.findNode x = some nd' ∧ nd'.inner.outTy = nd.inner.inTy
  caps_wf : ∀ k nd, g.findNode k = some nd → CapWF tyOf nd.inner


/-! ### Association-list lemmas used throughout -/

/-- Lookup at the key of the head entry. -/
theorem lookup_cons_self {β : Type} (k : Nat) (b : β) (l : List (Nat × β)) :
    List.lookup k ((k, b) :: l) = some b := by
  simp [List.lookup]

/-- Lookup skipping a head entry with a different key. -/
theorem lookup_cons_ne {β : Type} (k a : Nat) (b : β) (l : List (Nat × β))
    (h : k ≠ a) : List.lookup k ((a, b) :: l) = List.lookup k l := by
  have hb : (k == a) = false := by simp [h]
  simp [List.lookup, hb]

/-- Lookup after a keyed in-place modification, at the modified key. -/
theorem lookup_modify_self {β : Type} (l : List (Nat × β)) (k : Nat) (f : β → β) :
    (l.map (fun p => if p.1 = k then (p.1, f p.2) else p)).lookup k =
      (l.lookup k).map f := by
  induction l with
  | nil => simp
  | cons a l ih =>
    obtain ⟨a1, b⟩ := a
    by_cases hak : a1 = k
    · subst hak
      rw [List.map_cons, if_pos rfl, lookup_cons_self, lookup_cons_self]
      rfl
    · rw [List.map_cons, if_neg hak]
      rw [lookup_cons_ne _ _ _ _ (fun h => hak h.symm),
        lookup_cons_ne _ _ _ _ (fun h => hak h.symm)]
      exact ih

/-- Lookup after a keyed in-place modification, at any other key. -/
theorem lookup_modify_ne {β : Type} (l : List (Nat × β)) (k k' : Nat) (f : β → β)
    (h : k' ≠ k) :
    (l.map (fun p => if p.1 = k then (p.1, f p.2) else p)).lookup k' =
      l.lookup k' := by
  induction l with
  | nil => simp
  | cons a l ih =>
    obtain ⟨a1, b⟩ := a
    by_cases hak : a1 = k
    · subst hak
      rw [List.map_cons, if_pos rfl]
      rw [lookup_cons_ne _ _ _ _ h, lookup_cons_ne _ _ _ _ h]
      exact ih
    · rw [List.map_cons, if_neg hak]
      by_cases hk' : k' = a1
      · subst hk'
        rw [lookup_cons_self, lookup_cons_self]
      · rw [lookup_cons_ne _ _ _ _ hk', lookup_cons_ne _ _ _ _ hk']
        exact ih

/-- Lookup of an absent key is `none`. -/
theorem lookup_eq_none_of_forall_ne {β : Type} (l : List (Nat × β)) (k : Nat)
    (h : ∀ p ∈ l, p.1 ≠ k) : l.lookup k = none := by
  induction l with
  | nil => simp
  | cons a l ih =>
    obtain ⟨a1, b⟩ := a
    have ha : a1 ≠ k := h (a1, b) (by simp)
    rw [lookup_cons_ne _ _ _ _ (fun hh => ha hh.symm)]
    exact ih (fun p hp => h p (by simp [hp]))

/-- Lookup distributes over append when the key misses the left part. -/
theorem lookup_append_right {β : Type} (l₁ l₂ : List (Nat × β)) (k : Nat)
    (h : l₁.lookup k = none) : (l₁ ++ l₂).lookup k = l₂.lookup k := by
  induction l₁ with
  | nil => simp
  | cons a l ih =>
    obtain ⟨a1, b⟩ := a
    by_cases hk : k = a1
    · subst hk
      rw [lookup_cons_self] at h
      exact absurd h (by simp)
    · rw [List.cons_append, lookup_cons_ne _ _ _ _ hk]
      rw [lookup_cons_ne _ _ _ _ hk] at h
      exact ih h

namespace Graph

variable {V : Type}

/-- Looking up the modified key after `modifyNode`. -/
theorem findNode_modifyNode_self (g : Graph V) (k : Nat) (f : Node V → Node V) :
    (g.modifyNode k f).findNode k = (g.findNode k).map f :=
  lookup_modify_self g.nodes k f

/-- Looking up some other key after `modifyNode`. -/
theorem findNode_modifyNode_ne (g : Graph V) (k k' : Nat) (f : Node V → Node V)
    (h : k' ≠ k) : (g.modifyNode k f).findNode k' = g.findNode k' :=
  lookup_modify_ne g.nodes k k' f h

/-- The freshly inserted node is found under the returned handle's key. -/
theorem findNode_insert (g : Graph V) (name : String) (c : Cap V)
    (hfresh : KeysBelow g) :
    (g.insert_node name c).1.findNode (g.insert_node name c).2.key =
      some { name := name, inputs := [], inner := c, connected_to_input := true } := by
  unfold insert_node findNode
  simp only
  rw [lookup_append_right]
  · simp [List.lookup]
  · exact lookup_eq_none_of_forall_ne _ _
      (fun p hp => Nat.ne_of_lt (hfresh p hp))

end Graph

/-! ### Claim C1 -/

/-- C1: for the example graph (a `Constant(42.0)` node; a multiply node
with explicit inputs `[constant]` and the external-input flag set; an add
node with explicit inputs `[multiply, constant]`), `build::<f64, f64>`
from the designated `add` output node succeeds and the executor's
`compute(&7.0)` returns `336.0`; `build_for_node::<f64, f64>` rooted at
the multiply node succeeds and its `compute(&7.0)` returns `294.0`. -/
theorem claim_C1 :
    runBuilt fvTy (gExample.build floatTy floatTy).1 (.f 7) = some (.f 336) ∧
      runBuilt fvTy (gExample.build_for_node floatTy floatTy hMul).1 (.f 7) =
        some (.f 294) := by
  constructor <;> decide

/-! ### Claim C2

The source of `add_input` (graph.rs 173-175) clears the external-input
flag whenever it is set at the time of a successful call, not only the
first time the destination gains an input: a flag re-enabled by
`connect_to_input` after the first input is cleared again by the next
successful `add_input`.  The claim is refuted by that scenario and
corrected to: every successful `add_input` leaves the destination's flag
`false` (clearing it if set), and `add_input` never sets the flag. -/

/-- C2 counterexample: with the add node's flag re-enabled by
`connect_to_input` after its first explicit input, a second successful
`add_input` to the same destination does not leave the flag as it is — it
clears the re-enabled flag (the claim predicts it stays `true`). -/
theorem claim_C2_counterexample :
    (c2g4.findNode c2p.2.key).map Node.connected_to_input = some true ∧
      (c2g4.add_input c2p.2 c2g.2).1 = .ok () ∧
      ((c2g4.add_input c2p.2 c2g.2).2.findNode c2p.2.key).map
        Node.connected_to_input = some false := by
  refine ⟨by decide, by decide, by decide⟩

/-- C2 (amended): `insert_node` creates every node with the external-input
flag set to `true`; every successful `add_input(dest, source)` — first or
subsequent — leaves `dest`'s flag `false` afterwards (clearing it whenever
it is set at that moment, including one `connect_to_input` re-enabled, and
never enabling it). -/
theorem claim_C2_amended {V : Type} (g : Graph V) (name : String) (c : Cap V)
    (dest source : NodeHandle) (g' : Graph V)
    (hfresh : g.KeysBelow)
    (hok : g.add_input dest source = (.ok (), g')) :
    ((g.insert_node name c).1.findNode (g.insert_node name c).2.key).map
        Node.connected_to_input = some true ∧
      (g'.findNode dest.key).map Node.connected_to_input = some false := by
  constructor
  · rw [Graph.findNode_insert g name c hfresh]; rfl
  · unfold Graph.add_input at hok
    split at hok
    · simp at hok
    · split at hok
      · rename_i nd ndIn hfd hfs
        split at hok
        · rw [Prod.mk.injEq] at hok
          obtain ⟨-, hg'⟩ := hok
          subst hg'
          rw [Graph.findNode_modifyNode_self, hfd]
          cases hc : nd.connected_to_input <;> simp [hc]
        · split at hok <;> simp at hok
      · simp at hok

/-! ### Claim C3

The source returns `NodeMissing` for a stale handle only from the methods
that use checked slotmap access (`replace_node`, `get_name`); `add_input`
(graph.rs 167-168) and `_build_for_node` (graph.rs 253, reached from
`build` when the designated output node was removed) index the slotmap
directly, which panics on a stale key instead of returning an error. -/

/-- C3 counterexample: after removing the node, `add_input` with the stale
handle and `build` with the stale designated output node both panic — they
do not report the recoverable `NodeMissing` error the claim promises. -/
theorem claim_C3_counterexample :
    (c3gRemoved.add_input c3h c3h).1 = .panic ∧
      (c3gRemoved.add_input c3h c3h).1 ≠ .err .NodeMissing ∧
      (c3gRemoved.build floatTy floatTy).1 = .panic ∧
      (c3gRemoved.build floatTy floatTy).1 ≠ .err .NodeMissing := by
  refine ⟨by decide, by decide, by rfl, ?_⟩
  intro hcontra
  rw [show (c3gRemoved.build floatTy floatTy).1 = POut.panic from rfl] at hcontra
  exact POut.noConfusion hcontra

/-- C3 (amended): a stale handle is reported as a returned `NodeMissing`
error by `replace_node` and `get_name`, but `add_input` with a removed
endpoint panics (aborts), and so does `build` when the designated output
node has been removed — those two do not return `NodeMissing`. -/
theorem claim_C3_amended {V : Type} (g : Graph V) (h hin : NodeHandle)
    (c : Cap V) (tin tout : TyId)
    (hid : h.graph_id = g.id) (hmiss : g.findNode h.key = none) :
    (g.replace_node h c).1 = .err .NodeMissing ∧
      g.get_name h = .err .NodeMissing ∧
      (g.add_input h hin).1 = .panic ∧
      (g.output_node = some h.key → (g.build tin tout).1 = .panic) := by
  have hbad : Graph.badId g h = false := by
    simp [Graph.badId, hid]
  refine ⟨?_, ?_, ?_, ?_⟩
  · unfold Graph.replace_node
    rw [hbad]
    simp [hmiss]
  · unfold Graph.get_name Graph.get_name_key
    rw [hbad]
    simp [hmiss]
  · unfold Graph.add_input
    by_cases hbin : Graph.badId g hin = true
    · simp [hbin]
    · simp only [hbad, hbin, Bool.false_eq_true, or_self, if_false]
      simp [hmiss]
  · intro hout
    unfold Graph.build
    rw [hout]
    unfold Graph.build_for_node_key
    simp [hmiss]

/-- C3 amended-claim witness at the concrete removed-node scenario. -/
theorem claim_C3_amended_witness :
    (c3gRemoved.replace_node c3h (constCap 1)).1 = .err .NodeMissing ∧
      c3gRemoved.get_name c3h = .err .NodeMissing ∧
      (c3gRemoved.add_input c3h c3h).1 = .panic ∧
      (c3gRemoved.output_node = some c3h.key →
        (c3gRemoved.build floatTy floatTy).1 = .panic) :=
  claim_C3_amended c3gRemoved c3h c3h (constCap 1) floatTy floatTy
    (by decide) (by rfl)

/-! ### Claim C5 -/

/-- C5: with both handles owned by the graph and both nodes live (and their
type identities present in the registry, as `insert_node` guarantees),
`add_input(dest, source)` fails with a `WrongTypes` error if and only if
`source`'s declared output type identity differs from `dest`'s declared
input type identity, and on that failure the whole builder — `dest`'s input
list, its external-input flag, and every other node — is returned exactly
unchanged, the error carrying both node names and both type names. -/
theorem claim_C5 {V : Type} (g : Graph V) (h hin : NodeHandle)
    (nd ndIn : Node V) (t1 t2 : String)
    (hid1 : h.graph_id = g.id) (hid2 : hin.graph_id = g.id)
    (hfd : g.findNode h.key = some nd) (hfs : g.findNode hin.key = some ndIn)
    (hr1 : g.type_names.lookup nd.inner.inTy = some t1)
    (hr2 : g.type_names.lookup ndIn.inner.outTy = some t2) :
    ((∃ m, (g.add_input h hin).1 = .err (.WrongTypes m)) ↔
        nd.inner.inTy ≠ ndIn.inner.outTy) ∧
      (nd.inner.inTy ≠ ndIn.inner.outTy →
        g.add_input h hin = (.err (format_wrong_types nd.name t1 ndIn.name t2), g)) := by
  have hbad1 : Graph.badId g h = false := by simp [Graph.badId, hid1]
  have hbad2 : Graph.badId g hin = false := by simp [Graph.badId, hid2]
  unfold Graph.add_input
  simp only [hbad1, hbad2, Bool.false_eq_true, or_self, if_false, hfd, hfs]
  by_cases hty : nd.inner.inTy = ndIn.inner.outTy
  · rw [if_pos hty]
    constructor
    · constructor
      · rintro ⟨m, hm⟩
        exact POut.noConfusion hm
      · intro hne
        exact absurd hty hne
    · intro hne
      exact absurd hty hne
  · rw [if_neg hty, hr1, hr2]
    constructor
    · constructor
      · intro _
        exact hty
      · intro _
        exact ⟨_, rfl⟩
    · intro _
      rfl

/-- C5 witness: wiring the constant node's input from the add node is a
type mismatch (`()` vs `f64`) and is rejected with the formatted
`WrongTypes` error, leaving the graph unchanged. -/
theorem claim_C5_witness :
    ((∃ m, (gExample.add_input hConst hAdd).1 = .err (.WrongTypes m)) ↔
        (constCap 42).inTy ≠ addCap.outTy) ∧
      ((constCap 42).inTy ≠ addCap.outTy →
        gExample.add_input hConst hAdd =
          (.err (format_wrong_types "the_answer" "()" "add" "f64"), gExample)) := by
  have := claim_C5 gExample hConst hAdd
    { name := "the_answer", inputs := [], inner := constCap 42, connected_to_input := true }
    { name := "add", inputs := [hMul.key, hConst.key], inner := addCap,
      connected_to_input := false }
    "()" "f64" (by decide) (by decide) (by rfl) (by rfl) (by decide) (by decide)
  exact this

/-! ### Claim C8 -/

/-- C8: with the handle owned by the graph, the node live, and the node's
type identities registered (as `insert_node` guarantees),
`replace_node(handle, new_capability)` succeeds if and only if the new
capability's input and output type identities both equal the existing
node's; on success only the capability object is swapped — the node keeps
its name, input list and external-input flag, and every other node is
untouched; on failure the builder is returned unchanged (the original
capability stays installed) and the error enumerates exactly the
mismatched slots, each with the old and new type names. -/
theorem claim_C8 {V : Type} (g : Graph V) (h : NodeHandle) (c : Cap V)
    (nd : Node V) (oin oout : String)
    (hid : h.graph_id = g.id) (hfd : g.findNode h.key = some nd)
    (hr1 : g.type_names.lookup nd.inner.inTy = some oin)
    (hr2 : g.type_names.lookup nd.inner.outTy = some oout) :
    ((g.replace_node h c).1 = .ok () ↔
        (c.inTy = nd.inner.inTy ∧ c.outTy = nd.inner.outTy)) ∧
      ((c.inTy = nd.inner.inTy ∧ c.outTy = nd.inner.outTy) →
        (g.replace_node h c).2.findNode h.key =
            some { nd with inner := c } ∧
          ∀ k, k ≠ h.key → (g.replace_node h c).2.findNode k = g.findNode k) ∧
      (¬(c.inTy = nd.inner.inTy ∧ c.outTy = nd.inner.outTy) →
        g.replace_node h c =
          (.err (format_incompatible_object nd.name
            ((if c.inTy ≠ nd.inner.inTy then
                [("input", oin, (g.type_names.lookup c.inTy).getD "unknown type")]
              else []) ++
              (if c.outTy ≠ nd.inner.outTy then
                [("output", oout, (g.type_names.lookup c.outTy).getD "unknown type")]
              else []))), g)) := by
  have hbad : Graph.badId g h = false := by simp [Graph.badId, hid]
  by_cases hin : c.inTy = nd.inner.inTy <;>
    by_cases hout : c.outTy = nd.inner.outTy
  · have hres : g.replace_node h c =
        (.ok (), g.modifyNode h.key (fun nd => { nd with inner := c })) := by
      unfold Graph.replace_node
      simp only [hbad, Bool.false_eq_true, if_false, hfd, hin, hout, ne_eq,
        not_true_eq_false, if_false, List.nil_append]
    rw [hres]
    refine ⟨⟨fun _ => ⟨hin, hout⟩, fun _ => rfl⟩,
      fun _ => ⟨?_, fun k hk => Graph.findNode_modifyNode_ne g h.key k _ hk⟩,
      fun hcon => absurd ⟨hin, hout⟩ hcon⟩
    rw [Graph.findNode_modifyNode_self, hfd]
    rfl
  · have hres : g.replace_node h c =
        (.err (format_incompatible_object nd.name
          [("output", oout, (g.type_names.lookup c.outTy).getD "unknown type")]), g) := by
      unfold Graph.replace_node
      simp only [hbad, Bool.false_eq_true, if_false, hfd, hin, hout, ne_eq,
        not_true_eq_false, if_false, not_false_eq_true, if_true, hr2,
        List.nil_append]
    rw [hres]
    refine ⟨⟨fun hc => POut.noConfusion hc, fun hc => absurd hc.2 hout⟩,
      fun hc => absurd hc.2 hout, fun _ => ?_⟩
    rw [if_neg (not_not_intro hin), if_pos hout, List.nil_append]
  · have hres : g.replace_node h c =
        (.err (format_incompatible_object nd.name
          [("input", oin, (g.type_names.lookup c.inTy).getD "unknown type")]), g) := by
      unfold Graph.replace_node
      simp only [hbad, Bool.false_eq_true, if_false, hfd, hin, hout, ne_eq,
        not_true_eq_false, if_false, not_false_eq_true, if_true, hr1,
        List.append_nil]
    rw [hres]
    refine ⟨⟨fun hc => POut.noConfusion hc, fun hc => absurd hc.1 hin⟩,
      fun hc => absurd hc.1 hin, fun _ => ?_⟩
    rw [if_pos hin, if_neg (not_not_intro hout), List.append_nil]
  · have hres : g.replace_node h c =
        (.err (format_incompatible_object nd.name
          [("input", oin, (g.type_names.lookup c.inTy).getD "unknown type"),
           ("output", oout, (g.type_names.lookup c.outTy).getD "unknown type")]), g) := by
      unfold Graph.replace_node
      simp only [hbad, Bool.false_eq_true, if_false, hfd, hin, hout, ne_eq,
        not_false_eq_true, if_true, hr1, hr2, List.cons_append, List.nil_append]
    rw [hres]
    refine ⟨⟨fun hc => POut.noConfusion hc, fun hc => absurd hc.1 hin⟩,
      fun hc => absurd hc.1 hin, fun _ => ?_⟩
    rw [if_pos hin, if_pos hout, List.cons_append, List.nil_append]

/-- C8 witness: replacing the constant node (`() → f64`) of the example
graph by the add capability (`f64 → f64`) fails, enumerating exactly the
mismatched input slot with old type `()` and new type `f64`. -/
theorem claim_C8_witness :
    ((gExample.replace_node hConst addCap).1 = .ok () ↔
        (addCap.inTy = (constCap 42).inTy ∧ addCap.outTy = (constCap 42).outTy)) ∧
      (¬(addCap.inTy = (constCap 42).inTy ∧ addCap.outTy = (constCap 42).outTy) →
        gExample.replace_node hConst addCap =
          (.err (format_incompatible_object "the_answer"
            [("input", "()", "f64")]), gExample)) := by
  have H := claim_C8 gExample hConst addCap
    { name := "the_answer", inputs := [], inner := constCap 42, connected_to_input := true }
    "()" "f64" (by decide) (by rfl) (by decide) (by decide)
  refine ⟨H.1, fun hne => ?_⟩
  have := H.2.2 hne
  rw [this]
  rfl

/-- C2 amended-claim witness at the concrete C2 scenario. -/
theorem claim_C2_amended_witness :
    ((c2g4.insert_node "w" addCap).1.findNode
        (c2g4.insert_node "w" addCap).2.key).map Node.connected_to_input = some true ∧
      (((c2g4.add_input c2p.2 c2g.2).2).findNode c2p.2.key).map
        Node.connected_to_input = some false :=
  claim_C2_amended c2g4 "w" addCap c2p.2 c2g.2 _
    (by unfold Graph.KeysBelow; decide) (by rfl)

/-! ### Correctness of the depth-first topological sort: success path -/

namespace Graph

variable {V : Type}

/-- A trivially successful visit extends nothing. -/
theorem visitOk_rfl (g : Graph V) (s t : List Nat) : g.VisitOk s t s t :=
  ⟨rfl, ⟨[], by simp⟩, fun h => h⟩

/-- Successful visits compose. -/
theorem visitOk_trans {g : Graph V} {s t s₁ t₁ s' t' : List Nat}
    (h₁ : g.VisitOk s t s₁ t₁) (h₂ : g.VisitOk s₁ t₁ s' t') :
    g.VisitOk s t s' t' := by
  obtain ⟨ht₁, ⟨d₁, hs₁, hnd₁, hd₁⟩, htopo₁⟩ := h₁
  obtain ⟨ht₂, ⟨d₂, hs₂, hnd₂, hd₂⟩, htopo₂⟩ := h₂
  subst ht₁ ht₂ hs₁ hs₂
  refine ⟨rfl, ⟨d₁ ++ d₂, by rw [List.append_assoc], ?_, ?_⟩,
    fun h => htopo₂ (htopo₁ h)⟩
  · rw [List.nodup_append]
    exact ⟨hnd₁, hnd₂, fun x hx₁ hx₂ =>
      ((hd₂ x hx₂).2.1) (List.mem_append_right s hx₁)⟩
  · intro x hx
    rcases List.mem_append.1 hx with hx | hx
    · exact hd₁ x hx
    · obtain ⟨hnt, hns, hlive⟩ := hd₂ x hx
      exact ⟨hnt, fun hmem => hns (List.mem_append_left d₁ hmem), hlive⟩

/-- The sorted list only grows along a successful visit. -/
theorem visitOk_subset {g : Graph V} {s t s' t' : List Nat}
    (h : g.VisitOk s t s' t') : ∀ x ∈ s, x ∈ s' := by
  obtain ⟨-, ⟨d, hd, -, -⟩, -⟩ := h
  subst hd
  exact fun x hx => List.mem_append_left d hx

/-- Appending a node whose inputs are all already in the list preserves
topological order. -/
theorem topoOrd_append {g : Graph V} {s : List Nat} {node : Nat}
    (hs : g.TopoOrd s) (hin : ∀ x ∈ g.gInputs node, x ∈ s) :
    g.TopoOrd (s ++ [node]) := by
  intro i hi x hx
  rcases Nat.lt_or_ge i s.length with h | h
  · have hget : (s ++ [node]).get ⟨i, hi⟩ = s.get ⟨i, h⟩ := by
      simp [List.getElem_append_left h]
    rw [hget] at hx
    have htake : (s ++ [node]).take i = s.take i := by
      rw [List.take_append_eq_append_take, Nat.sub_eq_zero_of_le (Nat.le_of_lt h)]
      simp
    rw [htake]
    exact hs i h x hx
  · have hlen : i = s.length := by
      have : i < s.length + 1 := by simpa using hi
      omega
    subst hlen
    have hget : (s ++ [node]).get ⟨s.length, hi⟩ = node := by
      simp
    rw [hget] at hx
    have htake : (s ++ [node]).take s.length = s := List.take_left s [node]
    rw [htake]
    exact hin x hx

/-- Success analysis of the input loop, given the one-visit analysis at
the same fuel. -/
theorem visit_inputs_ok_of {g : Graph V} {fuel : Nat}
    (hV : ∀ node s t s' t', g.toposort_visit fuel node s t = .ok s' t' →
      g.VisitOk s t s' t' ∧ node ∈ s') :
    ∀ ks s t s' t', visit_inputs (g.toposort_visit fuel) ks s t = .ok s' t' →
      g.VisitOk s t s' t' ∧ ∀ k ∈ ks, k ∈ s' := by
  intro ks
  induction ks with
  | nil =>
    intro s t s' t' h
    unfold visit_inputs at h
    cases h
    exact ⟨visitOk_rfl g s t, by simp⟩
  | cons k ks ih =>
    intro s t s' t' h
    unfold visit_inputs at h
    split at h
    · rename_i s₁ t₁ hv
      obtain ⟨hok₁, hk₁⟩ := hV k s t s₁ t₁ hv
      obtain ⟨hok₂, hks⟩ := ih s₁ t₁ s' t' h
      refine ⟨visitOk_trans hok₁ hok₂, ?_⟩
      intro k' hk'
      rcases List.mem_cons.1 hk' with hk' | hk'
      · subst hk'
        exact visitOk_subset hok₂ k' hk₁
      · exact hks k' hk'
    · rename_i hne
      exact absurd h (hne s' t')

/-- Success analysis of one DFS visit: the recursion stack is restored,
the sorted list grows by fresh live keys, topological order is preserved,
and the visited node ends up in the sorted list. -/
theorem toposort_visit_ok {g : Graph V} :
    ∀ fuel node s t s' t', g.toposort_visit fuel node s t = .ok s' t' →
      g.VisitOk s t s' t' ∧ node ∈ s' := by
  intro fuel
  induction fuel with
  | zero =>
    intro node s t s' t' h
    exact absurd h (by simp [toposort_visit])
  | succ fuel ih =>
    intro node s t s' t' h
    have hstep : g.toposort_visit (fuel+1) node s t =
        tvStep g (g.toposort_visit fuel) node s t := rfl
    rw [hstep] at h
    unfold tvStep at h
    by_cases hns : node ∈ s
    · rw [if_pos hns] at h
      cases h
      exact ⟨visitOk_rfl g s t, hns⟩
    · rw [if_neg hns] at h
      by_cases hnt : node ∈ t
      · rw [if_pos hnt] at h
        split at h
        · exact TopoRes.noConfusion h
        · exact TopoRes.noConfusion h
      · rw [if_neg hnt] at h
        split at h
        · exact TopoRes.noConfusion h
        · rename_i nd hf
          split at h
          · rename_i s₁ t₁ hv
            obtain ⟨⟨ht₁, ⟨d₁, hs₁, hnd₁, hd₁⟩, htopo⟩, hmem⟩ :=
              visit_inputs_ok_of ih nd.inputs s (node :: t) s₁ t₁ hv
            cases h
            have hlive : g.IsLive node := by
              unfold IsLive
              rw [hf]
              rfl
            have herase : t₁.erase node = t := by
              rw [ht₁]
              exact List.erase_cons_head node t
            have hnode_notin_d₁ : node ∉ d₁ := fun hmem' =>
              (hd₁ node hmem').1 (List.mem_cons_self node t)
            refine ⟨⟨herase, ⟨d₁ ++ [node], ?_, ?_, ?_⟩, ?_⟩, ?_⟩
            · rw [hs₁, List.append_assoc]
            · rw [List.nodup_append]
              exact ⟨hnd₁, List.nodup_singleton node,
                fun x hx₁ hx₂ => by
                  rw [List.mem_singleton] at hx₂
                  subst hx₂
                  exact hnode_notin_d₁ hx₁⟩
            · intro x hx
              rcases List.mem_append.1 hx with hx | hx
              · obtain ⟨hxt, hxs, hxl⟩ := hd₁ x hx
                exact ⟨fun hmem' => hxt (List.mem_cons_of_mem node hmem'), hxs, hxl⟩
              · rw [List.mem_singleton] at hx
                subst hx
                exact ⟨hnt, hns, hlive⟩
            · intro htopo₀
              have hins : ∀ x ∈ g.gInputs node, x ∈ s₁ := by
                intro x hx
                apply hmem
                unfold gInputs at hx
                rw [hf] at hx
                exact hx
              exact topoOrd_append (htopo htopo₀) hins
            · exact List.mem_append_right s₁ (List.mem_singleton.2 rfl)
          · rename_i hne
            exact absurd h (hne s' t')

/-- A key with a successful lookup occurs among the stored keys. -/
theorem mem_keys_of_lookup {β : Type} {l : List (Nat × β)} {k : Nat} {v : β}
    (h : l.lookup k = some v) : k ∈ l.map Prod.fst := by
  induction l with
  | nil => simp at h
  | cons a l ih =>
    obtain ⟨a1, b⟩ := a
    by_cases hk : k = a1
    · subst hk
      simp
    · rw [lookup_cons_ne _ _ _ _ hk] at h
      simp only [List.map_cons, List.mem_cons]
      exact Or.inr (ih h)

/-- Filtering with a pointwise stronger predicate keeps at most as many
elements. -/
theorem length_filter_mono {α : Type} {p q : α → Bool}
    (hpq : ∀ a, p a = true → q a = true) :
    ∀ l : List α, (l.filter p).length ≤ (l.filter q).length := by
  intro l
  induction l with
  | nil => simp
  | cons a l ih =>
    by_cases hp : p a = true
    · rw [List.filter_cons_of_pos hp, List.filter_cons_of_pos (hpq a hp)]
      simpa using ih
    · rw [List.filter_cons_of_neg (by simpa using hp)]
      by_cases hq : q a = true
      · rw [List.filter_cons_of_pos hq]
        exact Nat.le_succ_of_le ih
      · rw [List.filter_cons_of_neg (by simpa using hq)]
        exact ih

/-- Pushing a live, not-yet-stacked node strictly shrinks the depth
budget. -/
theorem depthLeft_lt {g : Graph V} {node : Nat} {t : List Nat}
    (hlive : g.IsLive node) (hnt : node ∉ t) :
    g.depthLeft (node :: t) < g.depthLeft t := by
  unfold depthLeft
  have hmem : node ∈ g.nodes.map Prod.fst := by
    unfold IsLive findNode at hlive
    cases hf : g.nodes.lookup node with
    | none => rw [hf] at hlive; simp at hlive
    | some nd => exact mem_keys_of_lookup hf
  revert hmem
  generalize g.nodes.map Prod.fst = l
  intro hmem
  induction l with
  | nil => simp at hmem
  | cons a l ih =>
    by_cases ha : a = node
    · subst ha
      rw [List.filter_cons_of_neg (by simp), List.filter_cons_of_pos (by simpa using hnt)]
      have hmono : (l.filter (fun k => decide (k ∉ (a :: t)))).length ≤
          (l.filter (fun k => decide (k ∉ t))).length := by
        apply length_filter_mono
        intro x hx
        simp only [decide_eq_true_eq] at hx ⊢
        exact fun hxt => hx (List.mem_cons_of_mem a hxt)
      simp only [List.length_cons]
      omega
    · have hagree : (decide (a ∉ (node :: t))) = (decide (a ∉ t)) := by
        by_cases hat : a ∈ t
        · simp [hat, List.mem_cons]
        · simp [hat, List.mem_cons, ha]
      have hmem' : node ∈ l := by
        rcases List.mem_cons.1 hmem with hh | hh
        · exact absurd hh.symm ha
        · exact hh
      by_cases hkeep : a ∉ t
      · rw [List.filter_cons_of_pos (by rw [hagree]; simpa using hkeep),
          List.filter_cons_of_pos (by simpa using hkeep)]
        simpa using ih hmem'
      · rw [List.filter_cons_of_neg (by rw [hagree]; simpa using hkeep),
          List.filter_cons_of_neg (by simpa using hkeep)]
        exact ih hmem'

/-- The input loop cannot run out of fuel when one visit at this fuel
cannot (with the same depth budget). -/
theorem visit_inputs_ne_fuelOut {g : Graph V} {fuel : Nat}
    (hV : ∀ node s t, g.depthLeft t < fuel →
      g.toposort_visit fuel node s t ≠ .fuelOut) :
    ∀ ks s t, g.depthLeft t < fuel →
      visit_inputs (g.toposort_visit fuel) ks s t ≠ .fuelOut := by
  intro ks
  induction ks with
  | nil =>
    intro s t hlt
    simp [visit_inputs]
  | cons k ks ih =>
    intro s t hlt
    unfold visit_inputs
    split
    · rename_i s₁ t₁ hv
      have ht₁ : t₁ = t := (toposort_visit_ok fuel k s t s₁ t₁ hv).1.1
      rw [ht₁]
      exact ih s₁ t hlt
    · exact hV k s t hlt

/-- The DFS never runs out of fuel while the depth budget is below the
supplied fuel: fuel is a modelling artefact, not observable behaviour. -/
theorem toposort_visit_ne_fuelOut {g : Graph V} :
    ∀ fuel node s t, g.depthLeft t < fuel →
      g.toposort_visit fuel node s t ≠ .fuelOut := by
  intro fuel
  induction fuel with
  | zero =>
    intro node s t hlt
    exact absurd hlt (Nat.not_lt_zero _)
  | succ fuel ih =>
    intro node s t hlt
    have hstep : g.toposort_visit (fuel+1) node s t =
        tvStep g (g.toposort_visit fuel) node s t := rfl
    rw [hstep]
    unfold tvStep
    by_cases hns : node ∈ s
    · rw [if_pos hns]
      simp
    · rw [if_neg hns]
      by_cases hnt : node ∈ t
      · rw [if_pos hnt]
        split <;> simp
      · rw [if_neg hnt]
        split
        · simp
        · rename_i nd hf
          have hlive : g.IsLive node := by
            unfold IsLive
            rw [hf]
            rfl
          have hlt' : g.depthLeft (node :: t) < fuel := by
            have := depthLeft_lt hlive hnt
            omega
          split
          · simp
          · exact visit_inputs_ne_fuelOut (fun n s t h => ih n s t h)
              nd.inputs s (node :: t) hlt'

/-- Every stack entry reaches the stack top along dependency edges. -/
theorem chain_reaches_head {g : Graph V} :
    ∀ {t : List Nat} {hd : Nat}, g.StackChain (hd :: t) →
      ∀ x ∈ hd :: t, Relation.ReflTransGen g.Edge x hd := by
  intro t
  induction t with
  | nil =>
    intro hd hchain x hx
    rw [List.mem_singleton] at hx
    subst hx
    exact Relation.ReflTransGen.refl
  | cons hd' t' ih =>
    intro hd hchain x hx
    have hchain' : g.StackChain (hd' :: t') ∧ g.Edge hd' hd := by
      unfold StackChain at hchain ⊢
      rw [List.chain'_cons] at hchain
      exact ⟨hchain.2, hchain.1⟩
    rcases List.mem_cons.1 hx with hx | hx
    · subst hx
      exact Relation.ReflTransGen.refl
    · exact Relation.ReflTransGen.tail (ih hchain'.1 x hx) hchain'.2

/-- Cycle-soundness of the input loop, given cycle-soundness of one visit
at the same fuel. -/
theorem visit_inputs_cycle_sound {g : Graph V} {fuel root : Nat}
    (hV : ∀ node s t name, g.toposort_visit fuel node s t = .cycle name →
      g.StackChain t → g.StackTop t node → g.Reaches root node →
      (∀ x ∈ t, g.Reaches root x) →
      ∃ n nd, g.findNode n = some nd ∧ name = nd.name ∧
        g.Reaches root n ∧ Relation.TransGen g.Edge n n) :
    ∀ ks s t name, visit_inputs (g.toposort_visit fuel) ks s t = .cycle name →
      g.StackChain t → (∀ k ∈ ks, g.StackTop t k) →
      (∀ k ∈ ks, g.Reaches root k) → (∀ x ∈ t, g.Reaches root x) →
      ∃ n nd, g.findNode n = some nd ∧ name = nd.name ∧
        g.Reaches root n ∧ Relation.TransGen g.Edge n n := by
  intro ks
  induction ks with
  | nil =>
    intro s t name h
    exact absurd h (by simp [visit_inputs])
  | cons k ks ih =>
    intro s t name h hchain htop hreach htreach
    unfold visit_inputs at h
    split at h
    · rename_i s₁ t₁ hv
      have ht₁ : t₁ = t := (toposort_visit_ok fuel k s t s₁ t₁ hv).1.1
      rw [ht₁] at h
      exact ih s₁ t name h hchain (fun k' hk' => htop k' (List.mem_cons_of_mem k hk'))
        (fun k' hk' => hreach k' (List.mem_cons_of_mem k hk')) htreach
    · exact hV k s t name h hchain (htop k (List.mem_cons_self k ks))
        (hreach k (List.mem_cons_self k ks)) htreach

/-- Soundness of the cycle report: when the DFS fails with a cycle error,
the reported name belongs to a node that is reachable from the root and
lies on a directed cycle of dependency edges. -/
theorem toposort_visit_cycle_sound {g : Graph V} {root : Nat} :
    ∀ fuel node s t name, g.toposort_visit fuel node s t = .cycle name →
      g.StackChain t → g.StackTop t node → g.Reaches root node →
      (∀ x ∈ t, g.Reaches root x) →
      ∃ n nd, g.findNode n = some nd ∧ name = nd.name ∧
        g.Reaches root n ∧ Relation.TransGen g.Edge n n := by
  intro fuel
  induction fuel with
  | zero =>
    intro node s t name h
    exact absurd h (by simp [toposort_visit])
  | succ fuel ih =>
    intro node s t name h hchain htop hreach htreach
    have hstep : g.toposort_visit (fuel+1) node s t =
        tvStep g (g.toposort_visit fuel) node s t := rfl
    rw [hstep] at h
    unfold tvStep at h
    by_cases hns : node ∈ s
    · rw [if_pos hns] at h
      exact TopoRes.noConfusion h
    · rw [if_neg hns] at h
      by_cases hnt : node ∈ t
      · rw [if_pos hnt] at h
        split at h
        · rename_i nd hf
          cases h
          refine ⟨node, nd, hf, rfl, hreach, ?_⟩
          cases t with
          | nil => exact absurd hnt (List.not_mem_nil node)
          | cons hd t' =>
            have hedge : g.Edge hd node := htop
            have hpath : Relation.ReflTransGen g.Edge node hd :=
              chain_reaches_head hchain node hnt
            exact Relation.TransGen.tail' hpath hedge
        · exact TopoRes.noConfusion h
      · rw [if_neg hnt] at h
        split at h
        · exact TopoRes.noConfusion h
        · rename_i nd hf
          split at h
          · exact TopoRes.noConfusion h
          · rename_i hne
            apply visit_inputs_cycle_sound (fun n s t nm hc h1 h2 h3 h4 => ih n s t nm hc h1 h2 h3 h4)
              nd.inputs s (node :: t) name h
            · unfold StackChain
              cases t with
              | nil => simp
              | cons hd t' =>
                rw [List.chain'_cons]
                exact ⟨htop, hchain⟩
            · intro k hk
              show g.Edge node k
              unfold Edge gInputs
              rw [hf]
              exact hk
            · intro k hk
              refine Relation.ReflTransGen.tail hreach ?_
              unfold Edge gInputs
              rw [hf]
              exact hk
            · intro x hx
              rcases List.mem_cons.1 hx with hx | hx
              · subst hx
                exact hreach
              · exact htreach x hx

/-- The input loop cannot panic when one visit at the same fuel cannot. -/
theorem visit_inputs_ne_panic {g : Graph V} {fuel root : Nat}
    (hV : ∀ node s t, g.Reaches root node → (∀ x ∈ t, g.IsLive x) →
      g.toposort_visit fuel node s t ≠ .panic) :
    ∀ ks s t, (∀ k ∈ ks, g.Reaches root k) → (∀ x ∈ t, g.IsLive x) →
      visit_inputs (g.toposort_visit fuel) ks s t ≠ .panic := by
  intro ks
  induction ks with
  | nil =>
    intro s t hks ht
    simp [visit_inputs]
  | cons k ks ih =>
    intro s t hks ht
    unfold visit_inputs
    split
    · rename_i s₁ t₁ hv
      have ht₁ : t₁ = t := (toposort_visit_ok fuel k s t s₁ t₁ hv).1.1
      rw [ht₁]
      exact ih s₁ t (fun k' hk' => hks k' (List.mem_cons_of_mem k hk')) ht
    · exact hV k s t (hks k (List.mem_cons_self k ks)) ht

/-- The DFS never panics while every node reachable from the root is live
and every stacked node is live: with intact wiring, the only outcomes are
success and the cycle error. -/
theorem toposort_visit_ne_panic {g : Graph V} {root : Nat}
    (hreach_live : ∀ y, g.Reaches root y → g.IsLive y) :
    ∀ fuel node s t, g.Reaches root node → (∀ x ∈ t, g.IsLive x) →
      g.toposort_visit fuel node s t ≠ .panic := by
  intro fuel
  induction fuel with
  | zero =>
    intro node s t hreach ht
    simp [toposort_visit]
  | succ fuel ih =>
    intro node s t hreach ht
    have hstep : g.toposort_visit (fuel+1) node s t =
        tvStep g (g.toposort_visit fuel) node s t := rfl
    rw [hstep]
    unfold tvStep
    by_cases hns : node ∈ s
    · rw [if_pos hns]
      simp
    · rw [if_neg hns]
      by_cases hnt : node ∈ t
      · rw [if_pos hnt]
        split
        · simp
        · rename_i hf
          have := ht node hnt
          unfold IsLive at this
          rw [hf] at this
          simp at this
      · rw [if_neg hnt]
        split
        · rename_i hf
          have := hreach_live node hreach
          unfold IsLive at this
          rw [hf] at this
          simp at this
        · rename_i nd hf
          split
          · simp
          · apply visit_inputs_ne_panic (fun n s t h1 h2 => ih n s t h1 h2)
              nd.inputs s (node :: t)
            · intro k hk
              refine Relation.ReflTransGen.tail hreach ?_
              unfold Edge gInputs
              rw [hf]
              exact hk
            · intro x hx
              rcases List.mem_cons.1 hx with hx | hx
              · subst hx
                unfold IsLive
                rw [hf]
                rfl
              · exact ht x hx

/-- A successful lookup's key-value pair is in the list. -/
theorem mem_of_lookup {β : Type} {l : List (Nat × β)} {k : Nat} {v : β}
    (h : l.lookup k = some v) : (k, v) ∈ l := by
  induction l with
  | nil => simp at h
  | cons a l ih =>
    obtain ⟨a1, b⟩ := a
    by_cases hk : k = a1
    · subst hk
      rw [lookup_cons_self] at h
      cases h
      exact List.mem_cons_self _ _
    · rw [lookup_cons_ne _ _ _ _ hk] at h
      exact List.mem_cons_of_mem _ (ih h)

/-- A member of a `take` prefix has its first occurrence before the cut. -/
theorem indexOf_lt_of_mem_take {s : List Nat} {x : Nat} :
    ∀ {i : Nat}, x ∈ s.take i → s.indexOf x < i := by
  induction s with
  | nil => intro i h; simp at h
  | cons a s ih =>
    intro i h
    cases i with
    | zero => simp at h
    | succ i =>
      rw [List.take_succ_cons] at h
      by_cases hxa : x = a
      · subst hxa
        rw [List.indexOf_cons_self]
        exact Nat.succ_pos i
      · rcases List.mem_cons.1 h with hh | hh
        · exact absurd hh hxa
        · rw [List.indexOf_cons_ne _ (fun he => hxa he.symm)]
          exact Nat.succ_lt_succ (ih hh)

/-- The DFS from an empty state, when successful, puts the root last. -/
theorem toposort_root_last {g : Graph V} {fuel root : Nat}
    {s' t' : List Nat} (h : g.toposort_visit fuel root [] [] = .ok s' t') :
    ∃ s₁, s' = s₁ ++ [root] := by
  cases fuel with
  | zero => exact absurd h (by simp [toposort_visit])
  | succ fuel =>
    have hstep : g.toposort_visit (fuel+1) root [] [] =
        tvStep g (g.toposort_visit fuel) root [] [] := rfl
    rw [hstep] at h
    unfold tvStep at h
    rw [if_neg (List.not_mem_nil root), if_neg (List.not_mem_nil root)] at h
    split at h
    · exact TopoRes.noConfusion h
    · split at h
      · rename_i s₁ t₁ hv
        cases h
        exact ⟨s₁, rfl⟩
      · rename_i hne
        exact absurd h (hne s' t')

/-- Everything a successful `compute_order` guarantees about the returned
dependency order: no duplicates, only live keys, topological ordering,
and the root as the final element. -/
theorem compute_order_ok_props {g : Graph V} {root : Nat} {order : List Nat}
    (h : g.compute_order root = .ok order) :
    order.Nodup ∧ (∀ x ∈ order, g.IsLive x) ∧ g.TopoOrd order ∧
      root ∈ order ∧ ∃ s₁, order = s₁ ++ [root] := by
  unfold compute_order at h
  split at h
  · rename_i sorted t' hv
    have hord : order = sorted := by
      injection h with h'
      exact h'.symm
    subst hord
    obtain ⟨⟨-, ⟨d, hd, hnd, hdp⟩, htopo⟩, hmem⟩ :=
      toposort_visit_ok (g.fuelFor) root [] [] order t' hv
    rw [List.nil_append] at hd
    refine ⟨?_, ?_, ?_, hmem, toposort_root_last hv⟩
    · rw [hd]
      exact hnd
    · intro x hx
      refine (hdp x ?_).2.2
      rw [← hd]
      exact hx
    · apply htopo
      intro i hi
      exact absurd hi (by simp)
  · rename_i hv
    exact POut.noConfusion h
  · exact POut.noConfusion h
  · exact POut.noConfusion h

/-- In a topologically ordered duplicate-free list, following an edge
strictly decreases the position. -/
theorem topoOrd_edge_lt {g : Graph V} {order : List Nat}
    (htopo : g.TopoOrd order) (hnd : order.Nodup) {a b : Nat}
    (ha : a ∈ order) (hab : g.Edge a b) :
    b ∈ order ∧ order.indexOf b < order.indexOf a := by
  have hia : order.indexOf a < order.length := List.indexOf_lt_length.2 ha
  have hget : order.get ⟨order.indexOf a, hia⟩ = a := List.getElem_indexOf hia
  have hb : b ∈ order.take (order.indexOf a) := by
    apply htopo (order.indexOf a) hia
    rw [hget]
    exact hab
  exact ⟨List.take_subset _ _ hb, indexOf_lt_of_mem_take hb⟩

/-- In a topologically ordered duplicate-free list, a chain of edges
strictly decreases the position. -/
theorem topoOrd_transGen_lt {g : Graph V} {order : List Nat}
    (htopo : g.TopoOrd order) (hnd : order.Nodup) {a c : Nat}
    (hac : Relation.TransGen g.Edge a c) (ha : a ∈ order) :
    c ∈ order ∧ order.indexOf c < order.indexOf a := by
  induction hac with
  | single h => exact topoOrd_edge_lt htopo hnd ha h
  | tail hab hbc ih =>
    obtain ⟨hb, hlt⟩ := ih
    obtain ⟨hc, hlt'⟩ := topoOrd_edge_lt htopo hnd hb hbc
    exact ⟨hc, Nat.lt_trans hlt' hlt⟩

/-- A topologically ordered duplicate-free list admits no directed cycle
through its members. -/
theorem topoOrd_no_cycle {g : Graph V} {order : List Nat}
    (htopo : g.TopoOrd order) (hnd : order.Nodup) {c : Nat}
    (hc : c ∈ order) : ¬ Relation.TransGen g.Edge c c := by
  intro hcyc
  obtain ⟨-, hlt⟩ := topoOrd_transGen_lt htopo hnd hcyc hc
  exact Nat.lt_irrefl _ hlt

/-- A dependency order produced by `compute_order` contains every node
reachable from the root. -/
theorem compute_order_closed {g : Graph V} {root : Nat} {order : List Nat}
    (h : g.compute_order root = .ok order) :
    ∀ y, g.Reaches root y → y ∈ order := by
  obtain ⟨hnd, -, htopo, hroot, -⟩ := compute_order_ok_props h
  intro y hy
  induction hy with
  | refl => exact hroot
  | tail hab hbc ih => exact (topoOrd_edge_lt htopo hnd ih hbc).1

/-- Liveness propagates along reachability when every edge targets a live
node. -/
theorem reaches_live {g : Graph V} {root : Nat} (hEdges : g.EdgesLive)
    (hRoot : g.IsLive root) : ∀ y, g.Reaches root y → g.IsLive y := by
  intro y hy
  induction hy with
  | refl => exact hRoot
  | tail hab hbc ih => exact hEdges _ _ hbc

/-- Edge-liveness follows from a finite check over the stored nodes. -/
theorem edgesLive_of_nodes {g : Graph V}
    (h : ∀ p ∈ g.nodes, ∀ x ∈ p.2.inputs, g.IsLive x) : g.EdgesLive := by
  intro a b hab
  unfold Edge gInputs at hab
  cases hf : g.findNode a with
  | none => rw [hf] at hab; simp at hab
  | some nd =>
    rw [hf] at hab
    simp at hab
    exact h (a, nd) (mem_of_lookup hf) b hab

/-! ### Claim C4 -/

/-- C4: with intact wiring (every edge targets a live node) and a live
root, whenever the transitive input closure of the root contains a
directed cycle (self-edges included), `compute_order` — the topological
ordering step of every compilation rooted there — fails with `GraphCycle`
carrying the name of a node on a cycle; and whenever the reachable
subgraph is acyclic, the ordering succeeds and never reports
`GraphCycle`. -/
theorem claim_C4 {V : Type} (g : Graph V) (root : Nat)
    (hEdges : g.EdgesLive) (hRoot : g.IsLive root) :
    ((∃ c, g.Reaches root c ∧ Relation.TransGen g.Edge c c) →
      ∃ n nd, g.findNode n = some nd ∧
        g.compute_order root = .err (.GraphCycle nd.name) ∧
        g.Reaches root n ∧ Relation.TransGen g.Edge n n) ∧
    ((¬ ∃ c, g.Reaches root c ∧ Relation.TransGen g.Edge c c) →
      ∃ order, g.compute_order root = .ok order) := by
  have hlive := Graph.reaches_live hEdges hRoot
  have hfuel : g.depthLeft [] < g.fuelFor := by
    unfold Graph.depthLeft Graph.fuelFor
    simp
  constructor
  · rintro ⟨c, hrc, hcyc⟩
    cases hR : g.toposort_visit g.fuelFor root [] [] with
    | ok sorted t' =>
      exfalso
      have hco : g.compute_order root = .ok sorted := by
        unfold Graph.compute_order
        rw [hR]
      obtain ⟨hnd, -, htopo, -, -⟩ := Graph.compute_order_ok_props hco
      exact Graph.topoOrd_no_cycle htopo hnd
        (Graph.compute_order_closed hco c hrc) hcyc
    | cycle name =>
      obtain ⟨n, nd, hf, hname, hr, hc⟩ :=
        Graph.toposort_visit_cycle_sound g.fuelFor root [] [] name hR
          (by unfold Graph.StackChain; simp)
          (by unfold Graph.StackTop; trivial)
          Relation.ReflTransGen.refl (by simp)
      refine ⟨n, nd, hf, ?_, hr, hc⟩
      unfold Graph.compute_order
      rw [hR, hname]
    | panic =>
      exact absurd hR (Graph.toposort_visit_ne_panic hlive g.fuelFor root [] []
        Relation.ReflTransGen.refl (by simp))
    | fuelOut =>
      exact absurd hR (Graph.toposort_visit_ne_fuelOut g.fuelFor root [] [] hfuel)
  · intro hnc
    cases hR : g.toposort_visit g.fuelFor root [] [] with
    | ok sorted t' =>
      refine ⟨sorted, ?_⟩
      unfold Graph.compute_order
      rw [hR]
    | cycle name =>
      exfalso
      obtain ⟨n, nd, hf, hname, hr, hc⟩ :=
        Graph.toposort_visit_cycle_sound g.fuelFor root [] [] name hR
          (by unfold Graph.StackChain; simp)
          (by unfold Graph.StackTop; trivial)
          Relation.ReflTransGen.refl (by simp)
      exact hnc ⟨n, hr, hc⟩
    | panic =>
      exact absurd hR (Graph.toposort_visit_ne_panic hlive g.fuelFor root [] []
        Relation.ReflTransGen.refl (by simp))
    | fuelOut =>
      exact absurd hR (Graph.toposort_visit_ne_fuelOut g.fuelFor root [] [] hfuel)

/-- C4 witness at the two-node cycle `a ↔ b` rooted at `a`. -/
theorem claim_C4_witness :
    ((∃ c, c4gCyc.Reaches c4p1.2.key c ∧ Relation.TransGen c4gCyc.Edge c c) →
      ∃ n nd, c4gCyc.findNode n = some nd ∧
        c4gCyc.compute_order c4p1.2.key = .err (.GraphCycle nd.name) ∧
        c4gCyc.Reaches c4p1.2.key n ∧ Relation.TransGen c4gCyc.Edge n n) ∧
    ((¬ ∃ c, c4gCyc.Reaches c4p1.2.key c ∧ Relation.TransGen c4gCyc.Edge c c) →
      ∃ order, c4gCyc.compute_order c4p1.2.key = .ok order) :=
  claim_C4 c4gCyc c4p1.2.key
    (Graph.edgesLive_of_nodes (by decide)) (by decide)

/-- Membership through a successful `Option`-valued `mapM`. -/
theorem mapM_option_mem {α β : Type} {f : α → Option β} :
    ∀ {l : List α} {l' : List β}, l.mapM f = some l' →
      ∀ y ∈ l', ∃ x ∈ l, f x = some y := by
  intro l
  induction l with
  | nil =>
    intro l' h y hy
    simp only [List.mapM_nil, pure, Option.some.injEq] at h
    subst h
    simp at hy
  | cons a l ih =>
    intro l' h y hy
    rw [List.mapM_cons] at h
    cases hfa : f a with
    | none => rw [hfa] at h; simp at h
    | some b =>
      rw [hfa] at h
      cases hml : l.mapM f with
      | none => rw [hml] at h; simp at h
      | some bs =>
        rw [hml] at h
        simp only [Option.bind_eq_bind, Option.some_bind, pure,
          Option.some.injEq] at h
        subst h
        rcases List.mem_cons.1 hy with hy | hy
        · exact ⟨a, List.mem_cons_self a l, by rw [hfa, hy]⟩
        · obtain ⟨x, hx, hfx⟩ := ih hml y hy
          exact ⟨x, List.mem_cons_of_mem a hx, hfx⟩

/-- An `Option`-valued `mapM` succeeds when the function succeeds on every
element. -/
theorem mapM_option_isSome {α β : Type} {f : α → Option β} :
    ∀ {l : List α}, (∀ x ∈ l, (f x).isSome) → ∃ l', l.mapM f = some l' := by
  intro l
  induction l with
  | nil => intro _; exact ⟨[], rfl⟩
  | cons a l ih =>
    intro h
    obtain ⟨l', hl'⟩ := ih (fun x hx => h x (List.mem_cons_of_mem a hx))
    have ha := h a (List.mem_cons_self a l)
    cases hfa : f a with
    | none => rw [hfa] at ha; simp at ha
    | some b =>
      refine ⟨b :: l', ?_⟩
      rw [List.mapM_cons, hfa, hl']
      rfl

/-- Characterisation of a successful compile loop (`build_nodes`): one
compiled node per ordered key, in order, the flag count equal to the
number of flagged ordered keys, and the flagged type check passed. -/
theorem build_nodes_ok {V : Type} {g : Graph V} {inTy : TyId}
    {kidx : Nat → Option Nat} :
    ∀ {ord : List Nat} {cns : List (ComputeNode V)} {cnt : Nat},
      g.build_nodes inTy kidx ord = .ok (cns, cnt) →
      cns.length = ord.length ∧
        cnt = (ord.filter g.flagged).length ∧
        ∀ i (hi : i < ord.length), ∃ nd idxs,
          g.findNode (ord.get ⟨i, hi⟩) = some nd ∧
          nd.inputs.mapM kidx = some idxs ∧
          (∃ hi' : i < cns.length, cns.get ⟨i, hi'⟩ =
            { connected_to_input := nd.connected_to_input,
              inputs := idxs, func := nd.inner }) ∧
          (nd.connected_to_input = true →
            nd.inner.inTy = unitTy ∨ nd.inner.inTy = inTy) := by
  intro ord
  induction ord with
  | nil =>
    intro cns cnt h
    unfold Graph.build_nodes at h
    cases h
    exact ⟨rfl, rfl, fun i hi => absurd hi (by simp)⟩
  | cons k ks ih =>
    intro cns cnt h
    unfold Graph.build_nodes at h
    split at h
    · exact POut.noConfusion h
    · rename_i nd hf
      split at h
      · split at h
        · exact POut.noConfusion h
        · exact POut.noConfusion h
      · rename_i hchk
        split at h
        · exact POut.noConfusion h
        · rename_i idxs hmapm
          split at h
          · rename_i l c hrec
            cases h
            obtain ⟨hlen, hcnt, hidx⟩ := ih hrec
            have hflag : g.flagged k = nd.connected_to_input := by
              unfold Graph.flagged
              rw [hf]
            have htychk : nd.connected_to_input = true →
                nd.inner.inTy = unitTy ∨ nd.inner.inTy = inTy := by
              intro hflag'
              by_cases h1 : nd.inner.inTy = unitTy
              · exact Or.inl h1
              · by_cases h2 : nd.inner.inTy = inTy
                · exact Or.inr h2
                · exact absurd ⟨hflag', h1, h2⟩ hchk
            refine ⟨by simp [hlen], ?_, ?_⟩
            · cases hc : nd.connected_to_input with
              | true =>
                rw [List.filter_cons_of_pos (by rw [hflag]; exact hc)]
                simp only [List.length_cons, cond_true]
                omega
              | false =>
                rw [List.filter_cons_of_neg (by rw [hflag]; simp [hc])]
                simpa using hcnt
            · intro i hi
              cases i with
              | zero =>
                refine ⟨nd, idxs, hf, hmapm, ⟨by simp, rfl⟩, htychk⟩
              | succ i =>
                have hi' : i < ks.length := by simpa using hi
                obtain ⟨nd', idxs', hf', hm', ⟨hlt', hget'⟩, hty'⟩ := hidx i hi'
                refine ⟨nd', idxs', hf', hm', ⟨by simpa using hlt', ?_⟩, hty'⟩
                simpa using hget'
          · exact POut.noConfusion h
          · exact POut.noConfusion h

/-- The compile loop only ever returns `WrongTypes` errors. -/
theorem build_nodes_err_shape {V : Type} {g : Graph V} {inTy : TyId}
    {kidx : Nat → Option Nat} :
    ∀ {ord : List Nat} {e : ComputeGraphErrors},
      g.build_nodes inTy kidx ord = .err e → ∃ m, e = .WrongTypes m := by
  intro ord
  induction ord with
  | nil =>
    intro e h
    unfold Graph.build_nodes at h
    exact POut.noConfusion h
  | cons k ks ih =>
    intro e h
    unfold Graph.build_nodes at h
    split at h
    · exact POut.noConfusion h
    · split at h
      · split at h
        · exact POut.noConfusion h
        · rename_i tn hlk
          cases h
          exact ⟨_, rfl⟩
      · split at h
        · exact POut.noConfusion h
        · split at h
          · exact POut.noConfusion h
          · rename_i e' hrec
            cases h
            exact ih hrec
          · exact POut.noConfusion h

/-- The compile loop succeeds when every ordered key is live, passes the
flagged type check, and has all its input keys resolvable to positions. -/
theorem build_nodes_some {V : Type} {g : Graph V} {inTy : TyId}
    {kidx : Nat → Option Nat} :
    ∀ {ord : List Nat},
      (∀ k ∈ ord, ∃ nd, g.findNode k = some nd ∧
        (nd.connected_to_input = true →
          nd.inner.inTy = unitTy ∨ nd.inner.inTy = inTy) ∧
        (∀ x ∈ nd.inputs, (kidx x).isSome)) →
      ∃ cns cnt, g.build_nodes inTy kidx ord = .ok (cns, cnt) := by
  intro ord
  induction ord with
  | nil => intro _; exact ⟨[], 0, rfl⟩
  | cons k ks ih =>
    intro hall
    obtain ⟨nd, hf, hty, hres⟩ := hall k (List.mem_cons_self k ks)
    obtain ⟨cns, cnt, hrec⟩ := ih (fun x hx => hall x (List.mem_cons_of_mem k hx))
    obtain ⟨idxs, hm⟩ := mapM_option_isSome hres
    have hchk : ¬(nd.connected_to_input = true ∧
        nd.inner.inTy ≠ unitTy ∧ nd.inner.inTy ≠ inTy) := by
      rintro ⟨hflag', h1, h2⟩
      rcases hty hflag' with hh | hh
      · exact h1 hh
      · exact h2 hh
    refine ⟨({ connected_to_input := nd.connected_to_input, inputs := idxs, func := nd.inner } : ComputeNode V) :: cns, cond nd.connected_to_input 1 0 + cnt, ?_⟩
    unfold Graph.build_nodes
    simp only [hf, hm, hrec, if_neg hchk]

/-- Decomposition of a successful `_build_for_node`. -/
theorem build_for_node_key_ok {V : Type} {g : Graph V} {In Out : TyId}
    {root : Nat} {cg : ComputeGraphM V}
    (h : g.build_for_node_key In Out root = .ok cg) :
    ∃ root_nd order cns cnt,
      g.findNode root = some root_nd ∧ root_nd.inner.outTy = Out ∧
      g.compute_order root = .ok order ∧
      g.build_nodes In (keyIdx order) order = .ok (cns, cnt) ∧ cnt ≠ 0 ∧
      cg = ComputeGraphM.new cns In Out := by
  unfold Graph.build_for_node_key at h
  split at h
  · exact POut.noConfusion h
  · rename_i root_nd hf
    split at h
    · split at h
      · exact POut.noConfusion h
      · exact POut.noConfusion h
    · rename_i hout
      rw [not_not] at hout
      split at h
      · exact POut.noConfusion h
      · exact POut.noConfusion h
      · rename_i order hord
        split at h
        · exact POut.noConfusion h
        · exact POut.noConfusion h
        · rename_i ns num hbn
          split at h
          · exact POut.noConfusion h
          · rename_i hnum
            cases h
            exact ⟨root_nd, order, ns, num, hf, hout, hord, hbn, hnum, rfl⟩

/-- A successful `compute` returns the final scratch cell, whose value
has the pipeline's output type. -/
theorem compute_ok_last {V : Type} (tyOf : V → TyId) (cg : ComputeGraphM V)
    (input : V) {cells : List V} {out : V}
    (h : cg.compute tyOf input = .ok cells out) :
    cells.getLast? = some out ∧ tyOf out = cg.outTyPh := by
  unfold ComputeGraphM.compute at h
  split at h
  · exact RunRes.noConfusion h
  · exact RunRes.noConfusion h
  · rename_i cells' hrun
    split at h
    · exact RunRes.noConfusion h
    · rename_i v hlast
      split at h
      · rename_i hty
        cases h
        exact ⟨hlast, hty⟩
      · exact RunRes.noConfusion h

/-! ### Claim C6 -/

/-- C6: in every successfully compiled pipeline, each node's rewritten
input references are positions strictly below the node's own position in
the ordered sequence; the last position of the sequence belongs to the
compilation root (its capability is the root node's), so a non-panicking
`compute` returns the scratch value of the last cell — the root's. -/
theorem claim_C6 {V : Type} (tyOf : V → TyId) (g : Graph V) (In Out : TyId)
    (root : Nat) (cg : ComputeGraphM V)
    (h : g.build_for_node_key In Out root = .ok cg) :
    (∃ order root_nd, g.compute_order root = .ok order ∧
      order.getLast? = some root ∧ cg.nodes.length = order.length ∧
      g.findNode root = some root_nd ∧
      (cg.nodes.getLast?).map ComputeNode.func = some root_nd.inner) ∧
    (∀ i (hi : i < cg.nodes.length),
      ∀ j ∈ (cg.nodes.get ⟨i, hi⟩).inputs, j < i) ∧
    (∀ input cells out, cg.compute tyOf input = RunRes.ok cells out →
      cells.getLast? = some out) := by
  obtain ⟨root_nd, order, cns, cnt, hf, hout, hord, hbn, hnum, hcg⟩ :=
    build_for_node_key_ok h
  subst hcg
  obtain ⟨hlen, hcnt, hidx⟩ := build_nodes_ok hbn
  obtain ⟨hnodup, hlive, htopo, hroot, s₁, hs₁⟩ := Graph.compute_order_ok_props hord
  have hnodes : (ComputeGraphM.new cns In Out).nodes = cns := rfl
  have horder_len : order.length = s₁.length + 1 := by
    rw [hs₁, List.length_append, List.length_singleton]
  refine ⟨⟨order, root_nd, hord, ?_, (show cns.length = order.length from hlen),
    hf, ?_⟩, ?_, ?_⟩
  · rw [hs₁]
    exact List.getLast?_concat s₁
  · have hi₀ : s₁.length < order.length := by omega
    have hgetroot : order.get ⟨s₁.length, hi₀⟩ = root := by
      rw [List.get_eq_getElem, List.getElem_of_eq hs₁ hi₀]
      exact List.getElem_concat_length s₁ root s₁.length rfl _
    obtain ⟨nd₀, idxs₀, hf₀, hm₀, ⟨hlt₀, hget₀⟩, -⟩ := hidx s₁.length hi₀
    rw [hgetroot, hf] at hf₀
    have hnd₀ : nd₀ = root_nd := by
      cases hf₀
      rfl
    subst hnd₀
    have hlast : cns.getLast? = some (cns.get ⟨s₁.length, hlt₀⟩) := by
      rw [List.getLast?_eq_getElem?]
      have hlc : cns.length - 1 = s₁.length := by omega
      rw [hlc, List.getElem?_eq_getElem hlt₀]
      rfl
    show (cns.getLast?).map ComputeNode.func = some nd₀.inner
    rw [hlast, hget₀]
    rfl
  · intro i hi j hj
    have hic : i < cns.length := hi
    have hio : i < order.length := by omega
    obtain ⟨nd, idxs, hfnd, hm, ⟨hlt, hget⟩, -⟩ := hidx i hio
    have hj' : (ComputeGraphM.new cns In Out).nodes.get ⟨i, hi⟩ =
        cns.get ⟨i, hlt⟩ := rfl
    rw [hj', hget] at hj
    obtain ⟨x, hx, hkx⟩ := mapM_option_mem hm j hj
    unfold Graph.keyIdx at hkx
    split at hkx
    · rename_i hxin
      cases hkx
      have hedge : x ∈ g.gInputs (order.get ⟨i, hio⟩) := by
        unfold Graph.gInputs
        rw [hfnd]
        exact hx
      have htake := htopo i hio x hedge
      exact indexOf_lt_of_mem_take htake
    · exact Option.noConfusion hkx
  · intro input cells out hcomp
    exact (compute_ok_last tyOf _ input hcomp).1

/-- C6 witness at the executor compiled from the example graph. -/
theorem claim_C6_witness :
    (∃ order root_nd, gExample.compute_order hAdd.key = .ok order ∧
      order.getLast? = some hAdd.key ∧ cgExample.nodes.length = order.length ∧
      gExample.findNode hAdd.key = some root_nd ∧
      (cgExample.nodes.getLast?).map ComputeNode.func = some root_nd.inner) ∧
    (∀ i (hi : i < cgExample.nodes.length),
      ∀ j ∈ (cgExample.nodes.get ⟨i, hi⟩).inputs, j < i) ∧
    (∀ input cells out, cgExample.compute fvTy input = RunRes.ok cells out →
      cells.getLast? = some out) :=
  claim_C6 fvTy gExample floatTy floatTy hAdd.key cgExample (by rfl)

/-! ### Claim C7 -/

/-- C7: with the root live, the root output type matching, and the
topological ordering succeeding, compilation fails with `NoInputNodes` if
and only if zero nodes of the dependency order carry the external-input
flag; and whenever at least one ordered node is flagged and every flagged
ordered node passes the input-type check, compilation succeeds. -/
theorem claim_C7 {V : Type} (g : Graph V) (In Out : TyId) (root : Nat)
    (root_nd : Node V) (order : List Nat)
    (hroot : g.findNode root = some root_nd) (hout : root_nd.inner.outTy = Out)
    (hord : g.compute_order root = .ok order) :
    (g.build_for_node_key In Out root = .err .NoInputNodes ↔
      (order.filter g.flagged).length = 0) ∧
    ((order.filter g.flagged).length ≠ 0 →
      (∀ k nd, k ∈ order → g.findNode k = some nd →
        nd.connected_to_input = true →
        nd.inner.inTy = unitTy ∨ nd.inner.inTy = In) →
      ∃ cg, g.build_for_node_key In Out root = .ok cg) := by
  obtain ⟨hnodup, hlive, htopo, hroot_mem, -⟩ := Graph.compute_order_ok_props hord
  have hred : g.build_for_node_key In Out root =
      (match g.build_nodes In (Graph.keyIdx order) order with
        | .err e => .err e
        | .panic => .panic
        | .ok (ns, num) =>
          if num = 0 then .err .NoInputNodes
          else .ok (ComputeGraphM.new ns In Out)) := by
    unfold Graph.build_for_node_key
    rw [hroot]
    simp only [if_neg (not_not_intro hout), hord]
  have hsome : (∀ k nd, k ∈ order → g.findNode k = some nd →
      nd.connected_to_input = true →
      nd.inner.inTy = unitTy ∨ nd.inner.inTy = In) →
      ∃ cns cnt, g.build_nodes In (Graph.keyIdx order) order = .ok (cns, cnt) := by
    intro hty
    apply build_nodes_some
    intro k hk
    obtain ⟨nd, hnd⟩ := Option.isSome_iff_exists.1 (hlive k hk)
    refine ⟨nd, hnd, hty k nd hk hnd, ?_⟩
    intro x hx
    have hedge : g.Edge k x := by
      unfold Graph.Edge Graph.gInputs
      rw [hnd]
      exact hx
    have hxin : x ∈ order := (Graph.topoOrd_edge_lt htopo hnodup hk hedge).1
    unfold Graph.keyIdx
    rw [if_pos hxin]
    rfl
  constructor
  · constructor
    · intro herr
      rw [hred] at herr
      cases hbn : g.build_nodes In (Graph.keyIdx order) order with
      | ok p =>
        obtain ⟨ns, num⟩ := p
        rw [hbn] at herr
        have herr' : (if num = 0 then (POut.err .NoInputNodes : POut (ComputeGraphM V))
            else .ok (ComputeGraphM.new ns In Out)) = .err .NoInputNodes := herr
        by_cases hz : num = 0
        · obtain ⟨-, hcnt, -⟩ := build_nodes_ok hbn
          rw [← hcnt]
          exact hz
        · rw [if_neg hz] at herr'
          exact POut.noConfusion herr'
      | err e =>
        rw [hbn] at herr
        have herr' : (POut.err e : POut (ComputeGraphM V)) = .err .NoInputNodes := herr
        obtain ⟨m, hm⟩ := build_nodes_err_shape hbn
        have he : e = ComputeGraphErrors.NoInputNodes := by
          injection herr'
        rw [he] at hm
        exact ComputeGraphErrors.noConfusion hm
      | panic =>
        rw [hbn] at herr
        exact POut.noConfusion herr
    · intro hz
      have hty : ∀ k nd, k ∈ order → g.findNode k = some nd →
          nd.connected_to_input = true →
          nd.inner.inTy = unitTy ∨ nd.inner.inTy = In := by
        intro k nd hk hnd hflag
        exfalso
        have hfl : g.flagged k = true := by
          unfold Graph.flagged
          rw [hnd]
          exact hflag
        have : k ∈ order.filter g.flagged := List.mem_filter.2 ⟨hk, hfl⟩
        rw [List.length_eq_zero] at hz
        rw [hz] at this
        exact List.not_mem_nil k this
      obtain ⟨cns, cnt, hbn⟩ := hsome hty
      obtain ⟨-, hcnt, -⟩ := build_nodes_ok hbn
      have hc0 : cnt = 0 := by
        rw [hcnt]
        exact hz
      rw [hred, hbn, hc0]
      rfl
  · intro hnz hty
    obtain ⟨cns, cnt, hbn⟩ := hsome hty
    obtain ⟨-, hcnt, -⟩ := build_nodes_ok hbn
    refine ⟨ComputeGraphM.new cns In Out, ?_⟩
    rw [hred, hbn]
    show (if cnt = 0 then (POut.err .NoInputNodes : POut (ComputeGraphM V))
      else .ok (ComputeGraphM.new cns In Out)) = .ok (ComputeGraphM.new cns In Out)
    rw [if_neg (by rw [hcnt]; exact hnz)]

/-- C7 witness at the flagless single-constant graph: its compilation
fails with `NoInputNodes`. -/
theorem claim_C7_witness :
    (c7g.build_for_node_key floatTy floatTy c7p.2.key = .err .NoInputNodes ↔
      (([c7p.2.key].filter c7g.flagged)).length = 0) ∧
    ((([c7p.2.key].filter c7g.flagged)).length ≠ 0 →
      (∀ k nd, k ∈ [c7p.2.key] → c7g.findNode k = some nd →
        nd.connected_to_input = true →
        nd.inner.inTy = unitTy ∨ nd.inner.inTy = floatTy) →
      ∃ cg, c7g.build_for_node_key floatTy floatTy c7p.2.key = .ok cg) :=
  claim_C7 c7g floatTy floatTy c7p.2.key
    { name := "c", inputs := [], inner := constCap 5, connected_to_input := false }
    [c7p.2.key] (by rfl) (by decide) (by rfl)

/-- Lookup of a key found on the left of an append. -/
theorem lookup_append_left {β : Type} {l₁ : List (Nat × β)} {k : Nat} {v : β}
    (l₂ : List (Nat × β)) (h : l₁.lookup k = some v) :
    (l₁ ++ l₂).lookup k = some v := by
  induction l₁ with
  | nil => simp at h
  | cons a l ih =>
    obtain ⟨a1, b⟩ := a
    by_cases hk : k = a1
    · subst hk
      rw [lookup_cons_self] at h
      rw [List.cons_append, lookup_cons_self]
      exact h
    · rw [lookup_cons_ne _ _ _ _ hk] at h
      rw [List.cons_append, lookup_cons_ne _ _ _ _ hk]
      exact ih h

/-- Lookup after removing one key and transforming the remaining values. -/
theorem lookup_remove_map {β : Type} (hk : Nat) (f : β → β) :
    ∀ (l : List (Nat × β)) (k : Nat),
      ((l.filter (fun p => p.1 ≠ hk)).map (fun p => (p.1, f p.2))).lookup k =
        if k = hk then none else (l.lookup k).map f := by
  intro l
  induction l with
  | nil =>
    intro k
    by_cases h : k = hk <;> simp [h]
  | cons a l ih =>
    intro k
    obtain ⟨a1, b⟩ := a
    by_cases ha : a1 = hk
    · rw [List.filter_cons_of_neg (by simp [ha])]
      rw [ih]
      by_cases hkk : k = hk
      · rw [if_pos hkk, if_pos hkk]
      · rw [if_neg hkk, if_neg hkk,
          lookup_cons_ne _ _ _ _ (fun hcon => hkk (hcon.trans ha))]
    · rw [List.filter_cons_of_pos (by simp [ha]), List.map_cons]
      by_cases hka : k = a1
      · subst hka
        rw [lookup_cons_self, lookup_cons_self]
        rw [if_neg ha]
        rfl
      · rw [lookup_cons_ne _ _ _ _ hka, lookup_cons_ne _ _ _ _ hka, ih]

/-- Lookup of a pre-existing key after `insert_node`. -/
theorem findNode_insert_ne (g : Graph V) (name : String) (c : Cap V)
    {k : Nat} (h : k ≠ g.nextKey) :
    (g.insert_node name c).1.findNode k = g.findNode k := by
  unfold insert_node findNode
  simp only
  cases hf : g.nodes.lookup k with
  | some v => exact lookup_append_left _ hf
  | none =>
    rw [lookup_append_right _ _ _ hf]
    rw [lookup_cons_ne _ _ _ _ h]
    simp

/-- Lookup after `remove_node`'s filter-and-strip pass. -/
theorem findNode_remove (g : Graph V) (h : NodeHandle)
    (hid : (g.remove_node h).1 ≠ .panic) (k : Nat) :
    (g.remove_node h).2.findNode k =
      if k = h.key then none
      else (g.findNode k).map
        (fun nd => { nd with inputs := nd.inputs.filter (fun x => x ≠ h.key) }) := by
  have hbad : badId g h = false := by
    by_cases hb : badId g h = true
    · exfalso
      apply hid
      unfold remove_node
      rw [if_pos hb]
    · exact Bool.not_eq_true _ |>.mp hb
  unfold remove_node findNode
  simp only [hbad, Bool.false_eq_true, if_false]
  exact lookup_remove_map h.key
    (fun nd => { nd with inputs := nd.inputs.filter (fun x => x ≠ h.key) }) g.nodes k

/-- `modifyNode` preserves the key bound. -/
theorem keysBelow_modify {g : Graph V} {k : Nat} {f : Node V → Node V}
    (h : g.KeysBelow) : (g.modifyNode k f).KeysBelow := by
  intro p hp
  unfold modifyNode at hp
  simp only [List.mem_map] at hp
  obtain ⟨q, hq, hpq⟩ := hp
  have hp1 : p.1 = q.1 := by
    by_cases hqk : q.1 = k
    · rw [if_pos hqk] at hpq
      rw [← hpq]
    · rw [if_neg hqk] at hpq
      rw [← hpq]
  rw [hp1]
  exact h q hq

/-- The structural invariant is preserved by a keyed modification that
keeps the stored capability's type identities (possibly swapping the
capability for a well-formed one) and only adds input references whose
target is live with a matching output type. -/
theorem graphInv_modify {V : Type} {tyOf : V → TyId} {g : Graph V} {k : Nat}
    {f : Node V → Node V} (hinv : GraphInv tyOf g)
    (hty : ∀ nd, g.findNode k = some nd →
      (f nd).inner.inTy = nd.inner.inTy ∧ (f nd).inner.outTy = nd.inner.outTy)
    (hcap : ∀ nd, g.findNode k = some nd → CapWF tyOf (f nd).inner)
    (hinp : ∀ nd, g.findNode k = some nd → ∀ x ∈ (f nd).inputs,
      x ∈ nd.inputs ∨
        ∃ nd₂, g.findNode x = some nd₂ ∧ nd₂.inner.outTy = nd.inner.inTy) :
    GraphInv tyOf (g.modifyNode k f) := by
  have hfind : ∀ k', (g.modifyNode k f).findNode k' =
      if k' = k then (g.findNode k).map f else g.findNode k' := by
    intro k'
    by_cases hk : k' = k
    · subst hk
      rw [if_pos rfl]
      exact Graph.findNode_modifyNode_self g k' f
    · rw [if_neg hk]
      exact Graph.findNode_modifyNode_ne g k k' f hk
  have htransfer : ∀ x nd₁, g.findNode x = some nd₁ →
      ∃ nd₁', (g.modifyNode k f).findNode x = some nd₁' ∧
        nd₁'.inner.outTy = nd₁.inner.outTy := by
    intro x nd₁ hnd₁
    refine ⟨if x = k then f nd₁ else nd₁, ?_, ?_⟩
    · rw [hfind]
      by_cases hxk : x = k
      · rw [if_pos hxk, if_pos hxk]
        rw [hxk] at hnd₁
        rw [hnd₁]
        rfl
      · rw [if_neg hxk, if_neg hxk]
        exact hnd₁
    · by_cases hxk : x = k
      · rw [if_pos hxk]
        subst hxk
        exact (hty nd₁ hnd₁).2
      · rw [if_neg hxk]
  refine ⟨Graph.keysBelow_modify hinv.keys_below, ?_, ?_⟩
  · intro k' nd' hnd' x hx
    rw [hfind] at hnd'
    have hsrc : ∃ nd₀, g.findNode k' = some nd₀ ∧
        nd'.inner.inTy = nd₀.inner.inTy ∧
        (∀ y ∈ nd'.inputs, y ∈ nd₀.inputs ∨
          ∃ nd₂, g.findNode y = some nd₂ ∧ nd₂.inner.outTy = nd₀.inner.inTy) := by
      by_cases hk : k' = k
      · subst hk
        rw [if_pos rfl] at hnd'
        cases hg : g.findNode k' with
        | none => rw [hg] at hnd'; simp at hnd'
        | some nd₀ =>
          rw [hg] at hnd'
          simp only [Option.map_some'] at hnd'
          cases hnd'
          exact ⟨nd₀, rfl, (hty nd₀ hg).1, hinp nd₀ hg⟩
      · rw [if_neg hk] at hnd'
        exact ⟨nd', hnd', rfl, fun y hy => Or.inl hy⟩
    obtain ⟨nd₀, hnd₀, hin₀, hsub⟩ := hsrc
    rcases hsub x hx with hold | ⟨nd₂, hnd₂, hty₂⟩
    · obtain ⟨nd₁, hnd₁, hty₁⟩ := hinv.edges_typed k' nd₀ hnd₀ x hold
      obtain ⟨nd₁', hf₁, he₁⟩ := htransfer x nd₁ hnd₁
      refine ⟨nd₁', hf₁, ?_⟩
      rw [he₁, hty₁, hin₀]
    · obtain ⟨nd₂', hf₂, he₂⟩ := htransfer x nd₂ hnd₂
      refine ⟨nd₂', hf₂, ?_⟩
      rw [he₂, hty₂, hin₀]
  · intro k' nd' hnd'
    rw [hfind] at hnd'
    by_cases hk : k' = k
    · subst hk
      rw [if_pos rfl] at hnd'
      cases hg : g.findNode k' with
      | none => rw [hg] at hnd'; simp at hnd'
      | some nd₀ =>
        rw [hg] at hnd'
        simp only [Option.map_some'] at hnd'
        cases hnd'
        exact hcap nd₀ hg
    · rw [if_neg hk] at hnd'
      exact hinv.caps_wf k' nd' hnd'

/-- Variant of `findNode_insert` phrased at the fresh key itself. -/
theorem findNode_insert_key (g : Graph V) (name : String) (c : Cap V)
    (hfresh : KeysBelow g) :
    (g.insert_node name c).1.findNode g.nextKey =
      some { name := name, inputs := [], inner := c, connected_to_input := true } :=
  findNode_insert g name c hfresh

end Graph

/-- The graph a `replace_node` call leaves behind: unchanged, or the
capability swapped under equal type identities. -/
theorem replace_node_snd {V : Type} (g : Graph V) (h : NodeHandle) (c : Cap V) :
    (g.replace_node h c).2 = g ∨
      ∃ nd, g.findNode h.key = some nd ∧ c.inTy = nd.inner.inTy ∧
        c.outTy = nd.inner.outTy ∧
        (g.replace_node h c).2 =
          g.modifyNode h.key (fun n => { n with inner := c }) := by
  unfold Graph.replace_node
  split
  · exact Or.inl rfl
  · split
    · exact Or.inl rfl
    · rename_i nd hfd
      by_cases hin : c.inTy = nd.inner.inTy
      · by_cases hout : c.outTy = nd.inner.outTy
        · refine Or.inr ⟨nd, hfd, hin, hout, ?_⟩
          simp only [hin, hout, ne_eq, not_true_eq_false, if_false,
            List.nil_append]
        · apply Or.inl
          simp only [hin, hout, ne_eq, not_true_eq_false, if_false,
            not_false_eq_true, if_true]
          cases g.type_names.lookup nd.inner.outTy <;> simp
      · apply Or.inl
        simp only [hin, ne_eq, not_false_eq_true, if_true]
        cases g.type_names.lookup nd.inner.inTy with
        | none => simp
        | some oldName =>
          by_cases hout : c.outTy = nd.inner.outTy
          · simp only [hout, ne_eq, not_true_eq_false, if_false]
            simp
          · simp only [hout, ne_eq, not_false_eq_true, if_true]
            cases g.type_names.lookup nd.inner.outTy <;> simp

/-- The graph an `add_input` call leaves behind: unchanged, or the edge
appended (with the flag cleared) under matching type identities. -/
theorem add_input_snd {V : Type} (g : Graph V) (h hin : NodeHandle) :
    (g.add_input h hin).2 = g ∨
      ∃ nd ndIn, g.findNode h.key = some nd ∧ g.findNode hin.key = some ndIn ∧
        nd.inner.inTy = ndIn.inner.outTy ∧
        (g.add_input h hin).2 = g.modifyNode h.key (fun n =>
          { n with
              inputs := n.inputs ++ [hin.key],
              connected_to_input :=
                if n.connected_to_input then false else n.connected_to_input }) := by
  unfold Graph.add_input
  split
  · exact Or.inl rfl
  · split
    · rename_i nd ndIn hfd hfs
      by_cases hty : nd.inner.inTy = ndIn.inner.outTy
      · exact Or.inr ⟨nd, ndIn, hfd, hfs, hty, by rw [if_pos hty]⟩
      · apply Or.inl
        rw [if_neg hty]
        cases g.type_names.lookup nd.inner.inTy <;>
          cases g.type_names.lookup ndIn.inner.outTy <;> simp
    · exact Or.inl rfl

/-- A found key is below the fresh-key counter. -/
theorem lt_next_of_find {V : Type} {g : Graph V} {k : Nat} {nd : Node V}
    (hkb : g.KeysBelow) (h : g.findNode k = some nd) : k < g.nextKey :=
  hkb (k, nd) (Graph.mem_of_lookup h)

/-- Every graph reachable through the construction API satisfies the
structural invariant: keys below the counter, all edges live and typed,
all capabilities well-formed. -/
theorem built_inv {V : Type} {tyOf : V → TyId} :
    ∀ {g : Graph V}, Built tyOf g → GraphInv tyOf g := by
  intro g hB
  induction hB with
  | new gid =>
    refine ⟨fun p hp => absurd hp (List.not_mem_nil p), ?_, ?_⟩
    · intro k nd hnd
      exact absurd hnd (by simp [Graph.new, Graph.findNode])
    · intro k nd hnd
      exact absurd hnd (by simp [Graph.new, Graph.findNode])
  | insert name hb hwf ih =>
    rename_i g' c
    refine ⟨?_, ?_, ?_⟩
    · intro p hp
      unfold Graph.insert_node at hp
      simp only [List.mem_append, List.mem_singleton] at hp
      show p.1 < g'.nextKey + 1
      rcases hp with hp | hp
      · exact Nat.lt_succ_of_lt (ih.keys_below p hp)
      · rw [hp]
        exact Nat.lt_succ_self _
    · intro k nd hnd x hx
      by_cases hk : k = g'.nextKey
      · subst hk
        rw [Graph.findNode_insert_key g' name c ih.keys_below] at hnd
        cases hnd
        exact absurd hx (List.not_mem_nil x)
      · rw [Graph.findNode_insert_ne g' name c hk] at hnd
        obtain ⟨nd₁, hnd₁, hty₁⟩ := ih.edges_typed k nd hnd x hx
        have hxlt : x ≠ g'.nextKey :=
          Nat.ne_of_lt (lt_next_of_find ih.keys_below hnd₁)
        refine ⟨nd₁, ?_, hty₁⟩
        rw [Graph.findNode_insert_ne g' name c hxlt]
        exact hnd₁
    · intro k nd hnd
      by_cases hk : k = g'.nextKey
      · subst hk
        rw [Graph.findNode_insert_key g' name c ih.keys_below] at hnd
        cases hnd
        exact hwf
      · rw [Graph.findNode_insert_ne g' name c hk] at hnd
        exact ih.caps_wf k nd hnd
  | remove h hb ih =>
    rename_i g'
    by_cases hbad : Graph.badId g' h = true
    · have hsnd : (g'.remove_node h).2 = g' := by
        unfold Graph.remove_node
        rw [if_pos hbad]
      rw [hsnd]
      exact ih
    · have hid : (g'.remove_node h).1 ≠ .panic := by
        unfold Graph.remove_node
        rw [if_neg hbad]
        simp
      have hfind := Graph.findNode_remove g' h hid
      have hnodes : (g'.remove_node h).2.nodes =
          (g'.nodes.filter (fun p => p.1 ≠ h.key)).map
            (fun p => (p.1, { p.2 with
              inputs := p.2.inputs.filter (fun k => k ≠ h.key) })) := by
        unfold Graph.remove_node
        rw [if_neg hbad]
      have hnext : (g'.remove_node h).2.nextKey = g'.nextKey := by
        unfold Graph.remove_node
        rw [if_neg hbad]
      refine ⟨?_, ?_, ?_⟩
      · intro p hp
        rw [hnodes] at hp
        simp only [List.mem_map, List.mem_filter] at hp
        obtain ⟨q, ⟨hq, -⟩, hpq⟩ := hp
        have hp1 : p.1 = q.1 := by rw [← hpq]
        show p.1 < (g'.remove_node h).2.nextKey
        rw [hnext, hp1]
        exact ih.keys_below q hq
      · intro k nd hnd x hx
        rw [hfind k] at hnd
        by_cases hk : k = h.key
        · rw [if_pos hk] at hnd
          exact Option.noConfusion hnd
        · rw [if_neg hk] at hnd
          cases hg : g'.findNode k with
          | none => rw [hg] at hnd; simp at hnd
          | some nd₀ =>
            rw [hg] at hnd
            simp only [Option.map_some'] at hnd
            cases hnd
            simp only [List.mem_filter, decide_eq_true_eq] at hx
            obtain ⟨hx₀, hxne⟩ := hx
            obtain ⟨nd₁, hnd₁, hty₁⟩ := ih.edges_typed k nd₀ hg x hx₀
            refine ⟨{ nd₁ with
              inputs := nd₁.inputs.filter (fun y => y ≠ h.key) }, ?_, hty₁⟩
            rw [hfind x, if_neg hxne, hnd₁]
            rfl
      · intro k nd hnd
        rw [hfind k] at hnd
        by_cases hk : k = h.key
        · rw [if_pos hk] at hnd
          exact Option.noConfusion hnd
        · rw [if_neg hk] at hnd
          cases hg : g'.findNode k with
          | none => rw [hg] at hnd; simp at hnd
          | some nd₀ =>
            rw [hg] at hnd
            simp only [Option.map_some'] at hnd
            cases hnd
            exact ih.caps_wf k nd₀ hg
  | replace h hb hwf ih =>
    rename_i g' c
    rcases replace_node_snd g' h c with hsnd | ⟨nd, hfd, hinT, houtT, hsnd⟩
    · rw [hsnd]
      exact ih
    · rw [hsnd]
      refine @Graph.graphInv_modify V tyOf g' h.key (fun n => { n with inner := c })
        ih ?_ ?_ ?_
      · intro nd₀ hnd₀
        rw [hnd₀] at hfd
        cases hfd
        exact ⟨hinT, houtT⟩
      · intro nd₀ hnd₀
        exact hwf
      · intro nd₀ hnd₀ x hx
        exact Or.inl hx
  | addInput h hin hb ih =>
    rename_i g'
    rcases add_input_snd g' h hin with hsnd | ⟨nd, ndIn, hfd, hfs, hty, hsnd⟩
    · rw [hsnd]
      exact ih
    · rw [hsnd]
      refine @Graph.graphInv_modify V tyOf g' h.key _ ih
        (fun nd₀ _ => ⟨rfl, rfl⟩) (fun nd₀ hnd₀ => ih.caps_wf h.key nd₀ hnd₀) ?_
      intro nd₀ hnd₀ x hx
      simp only [List.mem_append, List.mem_singleton] at hx
      rcases hx with hx | hx
      · exact Or.inl hx
      · subst hx
        rw [hnd₀] at hfd
        cases hfd
        exact Or.inr ⟨ndIn, hfs, hty.symm⟩
  | removeInput h hin hb ih =>
    rename_i g'
    by_cases hbad : Graph.badId g' h = true
    · have hsnd : (g'.remove_input h hin).2 = g' := by
        unfold Graph.remove_input
        rw [if_pos hbad]
      rw [hsnd]
      exact ih
    · have hsnd : (g'.remove_input h hin).2 = g'.modifyNode h.key (fun n =>
          { n with inputs := n.inputs.filter (fun k => k ≠ hin.key) }) := by
        unfold Graph.remove_input
        rw [if_neg hbad]
      rw [hsnd]
      refine @Graph.graphInv_modify V tyOf g' h.key _ ih
        (fun nd₀ _ => ⟨rfl, rfl⟩) (fun nd₀ hnd₀ => ih.caps_wf h.key nd₀ hnd₀) ?_
      intro nd₀ hnd₀ x hx
      simp only [List.mem_filter] at hx
      exact Or.inl hx.1
  | connect h hb ih =>
    rename_i g'
    by_cases hbad : Graph.badId g' h = true
    · have hsnd : (g'.connect_to_input h).2 = g' := by
        unfold Graph.connect_to_input
        rw [if_pos hbad]
      rw [hsnd]
      exact ih
    · have hsnd : (g'.connect_to_input h).2 = g'.modifyNode h.key (fun n =>
          { n with connected_to_input := true }) := by
        unfold Graph.connect_to_input
        rw [if_neg hbad]
      rw [hsnd]
      exact @Graph.graphInv_modify V tyOf g' h.key _ ih
        (fun nd₀ _ => ⟨rfl, rfl⟩) (fun nd₀ hnd₀ => ih.caps_wf h.key nd₀ hnd₀)
        (fun nd₀ _ x hx => Or.inl hx)
  | disconnect h hb ih =>
    rename_i g'
    by_cases hbad : Graph.badId g' h = true
    · have hsnd : (g'.disconnect_from_input h).2 = g' := by
        unfold Graph.disconnect_from_input
        rw [if_pos hbad]
      rw [hsnd]
      exact ih
    · have hsnd : (g'.disconnect_from_input h).2 = g'.modifyNode h.key (fun n =>
          { n with connected_to_input := false }) := by
        unfold Graph.disconnect_from_input
        rw [if_neg hbad]
      rw [hsnd]
      exact @Graph.graphInv_modify V tyOf g' h.key _ ih
        (fun nd₀ _ => ⟨rfl, rfl⟩) (fun nd₀ hnd₀ => ih.caps_wf h.key nd₀ hnd₀)
        (fun nd₀ _ x hx => Or.inl hx)
  | setOutput h hb ih =>
    rename_i g'
    by_cases hbad : Graph.badId g' h = true
    · have hsnd : (g'.set_output_node h).2 = g' := by
        unfold Graph.set_output_node
        rw [if_pos hbad]
      rw [hsnd]
      exact ih
    · have hsnd : (g'.set_output_node h).2 =
          { g' with output_node := some h.key } := by
        unfold Graph.set_output_node
        rw [if_neg hbad]
      rw [hsnd]
      exact ⟨ih.keys_below, ih.edges_typed, ih.caps_wf⟩

namespace Graph

variable {V : Type}

/-- A successful `_build_for_node` from a graph satisfying the structural
invariant yields a well-formed pipeline. -/
theorem build_cgwf {tyOf : V → TyId} {g : Graph V} {In Out : TyId}
    {root : Nat} {cg : ComputeGraphM V} (hinv : GraphInv tyOf g)
    (h : g.build_for_node_key In Out root = .ok cg) :
    CGWF tyOf cg := by
  obtain ⟨root_nd, order, cns, cnt, hf, hout, hord, hbn, hnum, hcg⟩ :=
    build_for_node_key_ok h
  subst hcg
  obtain ⟨hlen, hcnt, hidx⟩ := build_nodes_ok hbn
  obtain ⟨hnodup, hlive, htopo, hroot, s₁, hs₁⟩ := compute_order_ok_props hord
  have hnodes : (ComputeGraphM.new cns In Out).nodes = cns := rfl
  have horder_len : order.length = s₁.length + 1 := by
    rw [hs₁, List.length_append, List.length_singleton]
  have hcap : ∀ i (hi : i < cns.length), CapWF tyOf (cns.get ⟨i, hi⟩).func := by
    intro i hi
    have hio : i < order.length := by omega
    obtain ⟨nd, idxs, hfnd, hm, ⟨hlt, hget⟩, -⟩ := hidx i hio
    have he : cns.get ⟨i, hi⟩ = cns.get ⟨i, hlt⟩ := rfl
    rw [he, hget]
    exact hinv.caps_wf _ nd hfnd
  refine ⟨?_, ?_, ?_, ?_, ?_, ?_, ?_, ?_⟩
  · show (cns.map (fun n => n.func.initOut)).length = cns.length
    exact List.length_map _ _
  · show cns ≠ []
    intro hnil
    rw [hnil, hs₁] at hlen
    simp at hlen
  · intro n hn
    rw [hnodes] at hn
    obtain ⟨⟨i, hi⟩, hget⟩ := List.mem_iff_get.1 hn
    rw [← hget]
    exact hcap i hi
  · refine ⟨List.length_map _ _, ?_⟩
    intro i hc hn
    have hi : i < cns.length := hn
    have hcell : (ComputeGraphM.new cns In Out).outputs.get ⟨i, hc⟩ =
        (cns.get ⟨i, hi⟩).func.initOut := by
      simp [ComputeGraphM.new, List.get_map]
    rw [hcell]
    exact (hcap i hi).1
  · intro i hi j hj
    have hic : i < cns.length := hi
    have hio : i < order.length := by omega
    obtain ⟨nd, idxs, hfnd, hm, ⟨hlt, hget⟩, -⟩ := hidx i hio
    have hj' : (ComputeGraphM.new cns In Out).nodes.get ⟨i, hi⟩ =
        cns.get ⟨i, hlt⟩ := rfl
    rw [hj', hget] at hj
    obtain ⟨x, hx, hkx⟩ := mapM_option_mem hm j hj
    unfold keyIdx at hkx
    split at hkx
    · rename_i hxin
      cases hkx
      have hedge : x ∈ g.gInputs (order.get ⟨i, hio⟩) := by
        unfold gInputs
        rw [hfnd]
        exact hx
      exact indexOf_lt_of_mem_take (htopo i hio x hedge)
    · exact Option.noConfusion hkx
  · intro i hi j hj
    have hic : i < cns.length := hi
    have hio : i < order.length := by omega
    obtain ⟨nd, idxs, hfnd, hm, ⟨hlt, hget⟩, -⟩ := hidx i hio
    have hj' : (ComputeGraphM.new cns In Out).nodes.get ⟨i, hi⟩ =
        cns.get ⟨i, hlt⟩ := rfl
    rw [hj', hget] at hj ⊢
    obtain ⟨x, hx, hkx⟩ := mapM_option_mem hm j hj
    unfold keyIdx at hkx
    split at hkx
    · rename_i hxin
      cases hkx
      have hjo : order.indexOf x < order.length := List.indexOf_lt_length.2 hxin
      have hjc : order.indexOf x < cns.length := by omega
      obtain ⟨nd₂, idxs₂, hfnd₂, hm₂, ⟨hlt₂, hget₂⟩, -⟩ :=
        hidx (order.indexOf x) hjo
      have hgx : order.get ⟨order.indexOf x, hjo⟩ = x := List.getElem_indexOf hjo
      rw [hgx] at hfnd₂
      obtain ⟨nd₂', hnd₂', hty₂'⟩ := hinv.edges_typed _ nd hfnd x hx
      rw [hfnd₂] at hnd₂'
      injection hnd₂' with hnd₂'
      refine ⟨hjc, ?_⟩
      have he₂ : (ComputeGraphM.new cns In Out).nodes.get ⟨order.indexOf x, hjc⟩ =
          cns.get ⟨order.indexOf x, hlt₂⟩ := rfl
      rw [he₂, hget₂]
      show nd₂.inner.outTy = nd.inner.inTy
      rw [hnd₂']
      exact hty₂'
    · exact Option.noConfusion hkx
  · intro n hn hflag
    rw [hnodes] at hn
    obtain ⟨⟨i, hi⟩, hget⟩ := List.mem_iff_get.1 hn
    have hio : i < order.length := by omega
    obtain ⟨nd, idxs, hfnd, hm, ⟨hlt, hget'⟩, hty⟩ := hidx i hio
    have hne : n = cns.get ⟨i, hlt⟩ := hget.symm
    rw [hne, hget'] at hflag
    have hres : nd.inner.inTy = unitTy ∨ nd.inner.inTy = In := hty hflag
    rw [hne, hget']
    exact hres
  · intro n hlastn
    have hi₀ : s₁.length < order.length := by omega
    have hic₀ : s₁.length < cns.length := by omega
    have hgetroot : order.get ⟨s₁.length, hi₀⟩ = root := by
      rw [List.get_eq_getElem, List.getElem_of_eq hs₁ hi₀]
      exact List.getElem_concat_length s₁ root s₁.length rfl _
    obtain ⟨nd₀, idxs₀, hf₀, hm₀, ⟨hlt₀, hget₀⟩, -⟩ := hidx s₁.length hi₀
    rw [hgetroot, hf] at hf₀
    injection hf₀ with hf₀
    have hlast : cns.getLast? = some (cns.get ⟨s₁.length, hlt₀⟩) := by
      rw [List.getLast?_eq_getElem?]
      have hlc : cns.length - 1 = s₁.length := by omega
      rw [hlc, List.getElem?_eq_getElem hlt₀]
      rfl
    rw [hnodes, hlast] at hlastn
    injection hlastn with hlastn
    rw [← hlastn, hget₀]
    show nd₀.inner.outTy = Out
    rw [← hf₀]
    exact hout

end Graph

/-- `mapM` over `Option` only depends on the function's values on the
list's elements. -/
theorem mapM_option_congr {α β : Type} {f f' : α → Option β}
    {l : List α} (h : ∀ a ∈ l, f a = f' a) : l.mapM f = l.mapM f' := by
  induction l with
  | nil => rfl
  | cons a l ih =>
    rw [List.mapM_cons, List.mapM_cons, h a (List.mem_cons_self a l),
      ih (fun x hx => h x (List.mem_cons_of_mem a hx))]

/-- One unfolding of the node loop on a non-empty remaining list. -/
theorem run_nodes_cons {V : Type} (tyOf : V → TyId) (input : V)
    (n : ComputeNode V) (rest : List (ComputeNode V)) (i : Nat)
    (cells : List V) :
    run_nodes tyOf input (n :: rest) i cells =
      match cells[i]? with
      | none => .enginePanic
      | some old =>
        match (if n.func.inTy = unitTy then
            inner_compute tyOf n.func [] old
          else
            match gather_deps cells i n.inputs with
            | none => StepRes.enginePanic
            | some deps =>
              inner_compute tyOf n.func
                (if n.connected_to_input then deps ++ [input] else deps) old) with
        | .ok v => run_nodes tyOf input rest (i + 1) (cells.set i v)
        | .capPanic => .capPanic
        | .enginePanic => .enginePanic := rfl

/-- The node loop on a non-empty remaining list, with the scratch lookup
resolved. -/
theorem run_nodes_cons_some {V : Type} (tyOf : V → TyId) (input : V)
    (n : ComputeNode V) (rest : List (ComputeNode V)) (i : Nat)
    (cells : List V) (old : V) (hold : cells[i]? = some old) :
    run_nodes tyOf input (n :: rest) i cells =
      match (if n.func.inTy = unitTy then
          inner_compute tyOf n.func [] old
        else
          match gather_deps cells i n.inputs with
          | none => StepRes.enginePanic
          | some deps =>
            inner_compute tyOf n.func
              (if n.connected_to_input then deps ++ [input] else deps) old) with
      | .ok v => run_nodes tyOf input rest (i + 1) (cells.set i v)
      | .capPanic => .capPanic
      | .enginePanic => .enginePanic := by
  rw [run_nodes_cons tyOf input n rest i cells, hold]

/-- The node loop past the end of the pipeline is a no-op. -/
theorem run_nodes_past {V : Type} (tyOf : V → TyId) (input : V)
    (nodes : List (ComputeNode V)) (i : Nat) (cells : List V)
    (hle : nodes.length ≤ i) :
    run_nodes tyOf input (nodes.drop i) i cells = .done cells := by
  rw [List.drop_eq_nil_of_le hle]
  rfl

/-- Base case of the node-loop master lemma: at or past the end of the
pipeline. -/
theorem run_nodes_base {V : Type} (tyOf : V → TyId) (input : V)
    (nodes : List (ComputeNode V)) (i : Nat) (cells₁ cells₂ : List V)
    (hle : nodes.length ≤ i)
    (hlen₁ : cells₁.length = nodes.length)
    (hlen₂ : cells₂.length = nodes.length)
    (hty₁ : ∀ j (hc : j < cells₁.length) (hn : j < nodes.length),
      tyOf (cells₁.get ⟨j, hc⟩) = (nodes.get ⟨j, hn⟩).func.outTy)
    (hagree : ∀ j, j < i → cells₁[j]? = cells₂[j]?) :
    run_nodes tyOf input (nodes.drop i) i cells₁ =
        run_nodes tyOf input (nodes.drop i) i cells₂ ∧
      run_nodes tyOf input (nodes.drop i) i cells₁ ≠ .enginePanic ∧
      ∀ cells', run_nodes tyOf input (nodes.drop i) i cells₁ = .done cells' →
        cells'.length = nodes.length ∧
        ∀ j (hc : j < cells'.length) (hn : j < nodes.length),
          tyOf (cells'.get ⟨j, hc⟩) = (nodes.get ⟨j, hn⟩).func.outTy := by
  have hcc : cells₁ = cells₂ := by
    apply List.ext_getElem?
    intro j
    by_cases hji : j < i
    · exact hagree j hji
    · rw [List.getElem?_eq_none (by omega), List.getElem?_eq_none (by omega)]
  rw [run_nodes_past tyOf input nodes i cells₁ hle,
    run_nodes_past tyOf input nodes i cells₂ hle]
  refine ⟨by rw [hcc], fun hcon => LoopRes.noConfusion hcon, ?_⟩
  intro cells' hc
  injection hc with hc
  rw [← hc]
  exact ⟨hlen₁, hty₁⟩

/-- Master lemma on the executor's node loop: starting at position `i`
with two typed scratch states that agree on all already-written positions,
the two runs coincide, the run never engine-panics (no failed downcast, no
out-of-range access, no borrow of the cell currently held mutably), and a
completed run leaves every cell typed to its node's output type. -/
theorem run_nodes_master {V : Type} (tyOf : V → TyId) (input : V)
    (nodes : List (ComputeNode V))
    (hcaps : ∀ n ∈ nodes, CapWF tyOf n.func)
    (hlt : ∀ i (hi : i < nodes.length), ∀ j ∈ (nodes.get ⟨i, hi⟩).inputs, j < i)
    (hityped : ∀ i (hi : i < nodes.length), ∀ j ∈ (nodes.get ⟨i, hi⟩).inputs,
      ∃ hj : j < nodes.length,
        (nodes.get ⟨j, hj⟩).func.outTy = (nodes.get ⟨i, hi⟩).func.inTy)
    (hflag : ∀ n ∈ nodes, n.connected_to_input = true →
      n.func.inTy = unitTy ∨ tyOf input = n.func.inTy) :
    ∀ fuel i (cells₁ cells₂ : List V), nodes.length - i ≤ fuel →
      cells₁.length = nodes.length → cells₂.length = nodes.length →
      (∀ j (hc : j < cells₁.length) (hn : j < nodes.length),
        tyOf (cells₁.get ⟨j, hc⟩) = (nodes.get ⟨j, hn⟩).func.outTy) →
      (∀ j (hc : j < cells₂.length) (hn : j < nodes.length),
        tyOf (cells₂.get ⟨j, hc⟩) = (nodes.get ⟨j, hn⟩).func.outTy) →
      (∀ j, j < i → cells₁[j]? = cells₂[j]?) →
      run_nodes tyOf input (nodes.drop i) i cells₁ =
          run_nodes tyOf input (nodes.drop i) i cells₂ ∧
        run_nodes tyOf input (nodes.drop i) i cells₁ ≠ .enginePanic ∧
        ∀ cells', run_nodes tyOf input (nodes.drop i) i cells₁ = .done cells' →
          cells'.length = nodes.length ∧
          ∀ j (hc : j < cells'.length) (hn : j < nodes.length),
            tyOf (cells'.get ⟨j, hc⟩) = (nodes.get ⟨j, hn⟩).func.outTy := by
  intro fuel
  induction fuel with
  | zero =>
    intro i cells₁ cells₂ hfuel hlen₁ hlen₂ hty₁ hty₂ hagree
    exact run_nodes_base tyOf input nodes i cells₁ cells₂ (by omega)
      hlen₁ hlen₂ hty₁ hagree
  | succ fuel ih =>
    intro i cells₁ cells₂ hfuel hlen₁ hlen₂ hty₁ hty₂ hagree
    by_cases hle : nodes.length ≤ i
    · exact run_nodes_base tyOf input nodes i cells₁ cells₂ hle
        hlen₁ hlen₂ hty₁ hagree
    · have hilt : i < nodes.length := by omega
      have hdrop : nodes.drop i = nodes[i] :: nodes.drop (i + 1) :=
        List.drop_eq_getElem_cons hilt
      have hci₁ : i < cells₁.length := by omega
      have hci₂ : i < cells₂.length := by omega
      have hold₁ : cells₁[i]? = some cells₁[i] := List.getElem?_eq_getElem hci₁
      have hold₂ : cells₂[i]? = some cells₂[i] := List.getElem?_eq_getElem hci₂
      have hmem : nodes[i] ∈ nodes := List.getElem_mem hilt
      have hcapi : CapWF tyOf nodes[i].func := hcaps _ hmem
      have houtty₁ : tyOf cells₁[i] = nodes[i].func.outTy := hty₁ i hci₁ hilt
      have houtty₂ : tyOf cells₂[i] = nodes[i].func.outTy := hty₂ i hci₂ hilt
      have hkey : ∃ args,
          (∀ a ∈ args, tyOf a = nodes[i].func.inTy) ∧
          run_nodes tyOf input (nodes.drop i) i cells₁ =
            (match (match nodes[i].func.run args with
              | some v => StepRes.ok v
              | none => StepRes.capPanic) with
            | StepRes.ok v =>
                run_nodes tyOf input (nodes.drop (i + 1)) (i + 1)
                  (cells₁.set i v)
            | StepRes.capPanic => LoopRes.capPanic
            | StepRes.enginePanic => LoopRes.enginePanic) ∧
          run_nodes tyOf input (nodes.drop i) i cells₂ =
            (match (match nodes[i].func.run args with
              | some v => StepRes.ok v
              | none => StepRes.capPanic) with
            | StepRes.ok v =>
                run_nodes tyOf input (nodes.drop (i + 1)) (i + 1)
                  (cells₂.set i v)
            | StepRes.capPanic => LoopRes.capPanic
            | StepRes.enginePanic => LoopRes.enginePanic) := by
        by_cases hunit : nodes[i].func.inTy = unitTy
        · refine ⟨[], fun a ha => absurd ha (List.not_mem_nil a), ?_, ?_⟩
          · rw [hdrop, run_nodes_cons_some tyOf input nodes[i]
              (nodes.drop (i + 1)) i cells₁ cells₁[i] hold₁, if_pos hunit]
            unfold inner_compute
            rw [if_pos ⟨fun a ha => absurd ha (List.not_mem_nil a), houtty₁⟩]
          · rw [hdrop, run_nodes_cons_some tyOf input nodes[i]
              (nodes.drop (i + 1)) i cells₂ cells₂[i] hold₂, if_pos hunit]
            unfold inner_compute
            rw [if_pos ⟨fun a ha => absurd ha (List.not_mem_nil a), houtty₂⟩]
        · have hinputs : ∀ j ∈ nodes[i].inputs, j < i := hlt i hilt
          have hgcongr : gather_deps cells₁ i nodes[i].inputs =
              gather_deps cells₂ i nodes[i].inputs := by
            unfold gather_deps
            apply mapM_option_congr
            intro j hj
            have hji : j < i := hinputs j hj
            rw [if_neg (show ¬ j = i by omega),
              if_neg (show ¬ j = i by omega)]
            exact hagree j hji
          obtain ⟨deps, hdeps⟩ :
              ∃ deps, gather_deps cells₁ i nodes[i].inputs = some deps := by
            unfold gather_deps
            apply Graph.mapM_option_isSome
            intro j hj
            have hji : j < i := hinputs j hj
            rw [if_neg (show ¬ j = i by omega),
              List.getElem?_eq_getElem (show j < cells₁.length by omega)]
            rfl
          have hdeps₂ : gather_deps cells₂ i nodes[i].inputs = some deps := by
            rw [← hgcongr]
            exact hdeps
          have hdepty : ∀ d ∈ deps, tyOf d = nodes[i].func.inTy := by
            intro d hd
            obtain ⟨j, hj, hjd⟩ := Graph.mapM_option_mem hdeps d hd
            have hji : j < i := hinputs j hj
            rw [if_neg (show ¬ j = i by omega)] at hjd
            have hjc : j < cells₁.length := by omega
            rw [List.getElem?_eq_getElem hjc] at hjd
            injection hjd with hjd
            obtain ⟨hjn, hjty⟩ := hityped i hilt j hj
            have h1 : tyOf (cells₁.get ⟨j, hjc⟩) =
                (nodes.get ⟨j, hjn⟩).func.outTy := hty₁ j hjc hjn
            rw [← hjd]
            exact h1.trans hjty
          have hargty : ∀ a ∈ (if nodes[i].connected_to_input then
              deps ++ [input] else deps), tyOf a = nodes[i].func.inTy := by
            intro a ha
            by_cases hconn : nodes[i].connected_to_input = true
            · rw [if_pos hconn] at ha
              rcases List.mem_append.1 ha with ha | ha
              · exact hdepty a ha
              · rw [List.mem_singleton] at ha
                subst ha
                rcases hflag nodes[i] hmem hconn with hu | hu
                · exact absurd hu hunit
                · exact hu
            · rw [if_neg hconn] at ha
              exact hdepty a ha
          refine ⟨if nodes[i].connected_to_input then deps ++ [input] else deps,
            hargty, ?_, ?_⟩
          · rw [hdrop, run_nodes_cons_some tyOf input nodes[i]
              (nodes.drop (i + 1)) i cells₁ cells₁[i] hold₁, if_neg hunit,
              hdeps]
            show (match inner_compute tyOf nodes[i].func
                (if nodes[i].connected_to_input then deps ++ [input] else deps)
                cells₁[i] with
              | StepRes.ok v => run_nodes tyOf input (nodes.drop (i + 1))
                  (i + 1) (cells₁.set i v)
              | StepRes.capPanic => LoopRes.capPanic
              | StepRes.enginePanic => LoopRes.enginePanic) = _
            unfold inner_compute
            rw [if_pos ⟨hargty, houtty₁⟩]
          · rw [hdrop, run_nodes_cons_some tyOf input nodes[i]
              (nodes.drop (i + 1)) i cells₂ cells₂[i] hold₂, if_neg hunit,
              hdeps₂]
            show (match inner_compute tyOf nodes[i].func
                (if nodes[i].connected_to_input then deps ++ [input] else deps)
                cells₂[i] with
              | StepRes.ok v => run_nodes tyOf input (nodes.drop (i + 1))
                  (i + 1) (cells₂.set i v)
              | StepRes.capPanic => LoopRes.capPanic
              | StepRes.enginePanic => LoopRes.enginePanic) = _
            unfold inner_compute
            rw [if_pos ⟨hargty, houtty₂⟩]
      obtain ⟨args, hargty, hstep₁, hstep₂⟩ := hkey
      cases hr : nodes[i].func.run args with
      | none =>
        rw [hr] at hstep₁ hstep₂
        have h₁ : run_nodes tyOf input (nodes.drop i) i cells₁ =
            .capPanic := hstep₁
        have h₂ : run_nodes tyOf input (nodes.drop i) i cells₂ =
            .capPanic := hstep₂
        refine ⟨h₁.trans h₂.symm, ?_, ?_⟩
        · rw [h₁]
          exact fun hcon => LoopRes.noConfusion hcon
        · intro cells' hc
          rw [h₁] at hc
          exact LoopRes.noConfusion hc
      | some v =>
        rw [hr] at hstep₁ hstep₂
        have h₁ : run_nodes tyOf input (nodes.drop i) i cells₁ =
            run_nodes tyOf input (nodes.drop (i + 1)) (i + 1)
              (cells₁.set i v) := hstep₁
        have h₂ : run_nodes tyOf input (nodes.drop i) i cells₂ =
            run_nodes tyOf input (nodes.drop (i + 1)) (i + 1)
              (cells₂.set i v) := hstep₂
        have hv : tyOf v = nodes[i].func.outTy := hcapi.2 args v hargty hr
        have hsetty₁ : ∀ j (hc : j < (cells₁.set i v).length)
            (hn : j < nodes.length),
            tyOf ((cells₁.set i v).get ⟨j, hc⟩) =
              (nodes.get ⟨j, hn⟩).func.outTy := by
          intro j hc hn
          by_cases hji : j = i
          · subst hji
            have hgv : (cells₁.set j v).get ⟨j, hc⟩ = v :=
              List.getElem_set_self hc
            rw [hgv]
            exact hv
          · have hcj : j < cells₁.length := by
              rw [List.length_set] at hc
              exact hc
            have hgv : (cells₁.set i v).get ⟨j, hc⟩ = cells₁.get ⟨j, hcj⟩ :=
              List.getElem_set_ne (fun hcon => hji hcon.symm) hc
            rw [hgv]
            exact hty₁ j hcj hn
        have hsetty₂ : ∀ j (hc : j < (cells₂.set i v).length)
            (hn : j < nodes.length),
            tyOf ((cells₂.set i v).get ⟨j, hc⟩) =
              (nodes.get ⟨j, hn⟩).func.outTy := by
          intro j hc hn
          by_cases hji : j = i
          · subst hji
            have hgv : (cells₂.set j v).get ⟨j, hc⟩ = v :=
              List.getElem_set_self hc
            rw [hgv]
            exact hv
          · have hcj : j < cells₂.length := by
              rw [List.length_set] at hc
              exact hc
            have hgv : (cells₂.set i v).get ⟨j, hc⟩ = cells₂.get ⟨j, hcj⟩ :=
              List.getElem_set_ne (fun hcon => hji hcon.symm) hc
            rw [hgv]
            exact hty₂ j hcj hn
        have hsetagree : ∀ j, j < i + 1 →
            (cells₁.set i v)[j]? = (cells₂.set i v)[j]? := by
          intro j hj
          by_cases hji : j = i
          · subst hji
            rw [List.getElem?_set_self hci₁, List.getElem?_set_self hci₂]
          · rw [List.getElem?_set_ne (fun hcon => hji hcon.symm),
              List.getElem?_set_ne (fun hcon => hji hcon.symm)]
            exact hagree j (by omega)
        obtain ⟨heq, hnp, hdone⟩ := ih (i + 1) (cells₁.set i v)
          (cells₂.set i v) (by omega)
          (by rw [List.length_set]; exact hlen₁)
          (by rw [List.length_set]; exact hlen₂)
          hsetty₁ hsetty₂ hsetagree
        refine ⟨?_, ?_, ?_⟩
        · rw [h₁, h₂]
          exact heq
        · rw [h₁]
          exact hnp
        · intro cells' hc
          rw [h₁] at hc
          exact hdone cells' hc

/-- Unfolding of `compute` (on an arbitrary executor). -/
theorem compute_unfold {V : Type} (tyOf : V → TyId) (cg : ComputeGraphM V)
    (input : V) :
    cg.compute tyOf input =
      match run_nodes tyOf input cg.nodes 0 cg.outputs with
      | .capPanic => .capPanic
      | .enginePanic => .enginePanic
      | .done cells =>
        match cells.getLast? with
        | none => .enginePanic
        | some v => if tyOf v = cg.outTyPh then .ok cells v
            else .enginePanic := rfl

/-- Unfolding of `compute` on a literal executor. -/
theorem compute_mk_unfold {V : Type} (tyOf : V → TyId) (outs : List V)
    (ns : List (ComputeNode V)) (iT oT : TyId) (input : V) :
    ComputeGraphM.compute tyOf ⟨outs, ns, iT, oT⟩ input =
      match run_nodes tyOf input ns 0 outs with
      | .capPanic => .capPanic
      | .enginePanic => .enginePanic
      | .done cells =>
        match cells.getLast? with
        | none => .enginePanic
        | some v => if tyOf v = oT then .ok cells v else .enginePanic := rfl

/-- On a well-formed pipeline with a correctly typed input, `compute` is
insensitive to the starting scratch state (any typed cell list gives the
very same outcome as the executor's own cells) and never engine-panics. -/
theorem compute_master {V : Type} {tyOf : V → TyId} {cg : ComputeGraphM V}
    (hwf : CGWF tyOf cg) (input : V) (hin : tyOf input = cg.inTyPh)
    (cells : List V) (hlen : cells.length = cg.nodes.length)
    (hty : ∀ j (hc : j < cells.length) (hn : j < cg.nodes.length),
      tyOf (cells.get ⟨j, hc⟩) = (cg.nodes.get ⟨j, hn⟩).func.outTy) :
    ComputeGraphM.compute tyOf { cg with outputs := cells } input =
        cg.compute tyOf input ∧
      cg.compute tyOf input ≠ .enginePanic := by
  have hflag' : ∀ n ∈ cg.nodes, n.connected_to_input = true →
      n.func.inTy = unitTy ∨ tyOf input = n.func.inTy := by
    intro n hn hc
    rcases hwf.flagged_ty n hn hc with hu | hu
    · exact Or.inl hu
    · refine Or.inr ?_
      rw [hin, hu]
  obtain ⟨heq, hnp, hdone⟩ := run_nodes_master tyOf input cg.nodes hwf.caps_wf
    hwf.inputs_lt hwf.inputs_typed hflag' cg.nodes.length 0 cg.outputs cells
    (by omega) hwf.len_eq hlen hwf.cells_typed.2 hty
    (fun j hj => absurd hj (Nat.not_lt_zero j))
  have heq' : run_nodes tyOf input cg.nodes 0 cg.outputs =
      run_nodes tyOf input cg.nodes 0 cells := heq
  have hnp' : run_nodes tyOf input cg.nodes 0 cg.outputs ≠ .enginePanic := hnp
  cases hrun : run_nodes tyOf input cg.nodes 0 cg.outputs with
  | enginePanic => exact absurd hrun hnp'
  | capPanic =>
    have hrun₂ : run_nodes tyOf input cg.nodes 0 cells = .capPanic := by
      rw [← heq']
      exact hrun
    have hc₁ : ComputeGraphM.compute tyOf { cg with outputs := cells } input =
        .capPanic := by
      rw [compute_mk_unfold tyOf cells cg.nodes cg.inTyPh cg.outTyPh input,
        hrun₂]
    have hc₂ : cg.compute tyOf input = .capPanic := by
      rw [compute_unfold tyOf cg input, hrun]
    refine ⟨hc₁.trans hc₂.symm, ?_⟩
    rw [hc₂]
    exact fun hcon => RunRes.noConfusion hcon
  | done cells' =>
    have hrun₂ : run_nodes tyOf input cg.nodes 0 cells = .done cells' := by
      rw [← heq']
      exact hrun
    obtain ⟨hlen', hty'⟩ := hdone cells' hrun
    have hpos : 0 < cg.nodes.length := List.length_pos.2 hwf.ne_nil
    have hlast_lt : cells'.length - 1 < cells'.length := by omega
    have hnode_lt : cg.nodes.length - 1 < cg.nodes.length := by omega
    have hlast : cells'.getLast? =
        some (cells'.get ⟨cells'.length - 1, hlast_lt⟩) := by
      rw [List.getLast?_eq_getElem?, List.getElem?_eq_getElem hlast_lt]
      rfl
    have hnlast : cg.nodes.getLast? =
        some (cg.nodes.get ⟨cg.nodes.length - 1, hnode_lt⟩) := by
      rw [List.getLast?_eq_getElem?, List.getElem?_eq_getElem hnode_lt]
      rfl
    have hidx : cells'.length - 1 < cg.nodes.length := by omega
    have hvty : tyOf (cells'.get ⟨cells'.length - 1, hlast_lt⟩) =
        cg.outTyPh := by
      have h1 := hty' (cells'.length - 1) hlast_lt hidx
      rw [h1]
      have hsame : cg.nodes.get ⟨cells'.length - 1, hidx⟩ =
          cg.nodes.get ⟨cg.nodes.length - 1, hnode_lt⟩ :=
        congrArg cg.nodes.get (Fin.ext (by
          show cells'.length - 1 = cg.nodes.length - 1
          omega))
      rw [hsame]
      exact hwf.last_ty _ hnlast
    have hc₂ : cg.compute tyOf input =
        .ok cells' (cells'.get ⟨cells'.length - 1, hlast_lt⟩) := by
      rw [compute_unfold tyOf cg input, hrun]
      show (match cells'.getLast? with
        | none => (RunRes.enginePanic : RunRes V)
        | some v => if tyOf v = cg.outTyPh then RunRes.ok cells' v
            else RunRes.enginePanic) = _
      rw [hlast]
      show (if tyOf (cells'.get ⟨cells'.length - 1, hlast_lt⟩) = cg.outTyPh
          then RunRes.ok cells' (cells'.get ⟨cells'.length - 1, hlast_lt⟩)
          else RunRes.enginePanic) = _
      rw [if_pos hvty]
    have hc₁ : ComputeGraphM.compute tyOf { cg with outputs := cells } input =
        .ok cells' (cells'.get ⟨cells'.length - 1, hlast_lt⟩) := by
      rw [compute_mk_unfold tyOf cells cg.nodes cg.inTyPh cg.outTyPh input,
        hrun₂]
      show (match cells'.getLast? with
        | none => (RunRes.enginePanic : RunRes V)
        | some v => if tyOf v = cg.outTyPh then RunRes.ok cells' v
            else RunRes.enginePanic) = _
      rw [hlast]
      show (if tyOf (cells'.get ⟨cells'.length - 1, hlast_lt⟩) = cg.outTyPh
          then RunRes.ok cells' (cells'.get ⟨cells'.length - 1, hlast_lt⟩)
          else RunRes.enginePanic) = _
      rw [if_pos hvty]
    refine ⟨hc₁.trans hc₂.symm, ?_⟩
    rw [hc₂]
    exact fun hcon => RunRes.noConfusion hcon

/-- `build` never mutates the builder. -/
theorem build_snd {V : Type} (g : Graph V) (In Out : TyId) :
    (g.build In Out).2 = g := by
  unfold Graph.build
  cases g.output_node <;> rfl

/-- `build_for_node` never mutates the builder. -/
theorem build_for_node_snd {V : Type} (g : Graph V) (In Out : TyId)
    (h : NodeHandle) : (g.build_for_node In Out h).2 = g := by
  unfold Graph.build_for_node
  split <;> rfl

/-- A successful `build` or `build_for_node` comes from a successful
`_build_for_node` at some root key. -/
theorem build_ok_elim {V : Type} {g : Graph V} {In Out : TyId}
    {h : NodeHandle} {cg : ComputeGraphM V}
    (hok : (g.build In Out).1 = .ok cg ∨
      (g.build_for_node In Out h).1 = .ok cg) :
    ∃ root, g.build_for_node_key In Out root = .ok cg := by
  rcases hok with hok | hok
  · unfold Graph.build at hok
    cases ho : g.output_node with
    | none =>
      rw [ho] at hok
      exact POut.noConfusion hok
    | some k =>
      rw [ho] at hok
      exact ⟨k, hok⟩
  · unfold Graph.build_for_node at hok
    split at hok
    · exact POut.noConfusion hok
    · exact ⟨h.key, hok⟩

/-- `Constant<f64>` is a well-formed capability. -/
theorem constCap_wf (c : Int) : CapWF fvTy (constCap c) := by
  refine ⟨rfl, ?_⟩
  intro args r _ hr
  have hr' : some (FV.f c) = some r := hr
  injection hr' with hr'
  rw [← hr']
  rfl

/-- `AddInputs<f64>` is a well-formed capability. -/
theorem addCap_wf : CapWF fvTy addCap := by
  refine ⟨rfl, ?_⟩
  intro args r _ hr
  have hr' : some (FV.f (args.foldl (fun acc v => getF v + acc) 0)) =
      some r := hr
  injection hr' with hr'
  rw [← hr']
  rfl

/-- `MulInputs<f64>` is a well-formed capability (on a single typed input
the input itself is returned, so the typed-arguments hypothesis of
`CapWF` is essential). -/
theorem mulCap_wf : CapWF fvTy mulCap := by
  refine ⟨rfl, ?_⟩
  intro args r hargs hr
  cases args with
  | nil => exact Option.noConfusion hr
  | cons a tl =>
    cases tl with
    | nil =>
      have hr' : some a = some r := hr
      injection hr' with hr'
      rw [← hr']
      exact hargs a (List.mem_singleton.2 rfl)
    | cons b rest =>
      have hr' : some (FV.f ((b :: rest).foldl
          (fun prod v => getF v * prod) (getF a))) = some r := hr
      injection hr' with hr'
      rw [← hr']
      rfl

/-- The example graph is reachable through the construction API with
well-formed capabilities. -/
theorem built_gExample : Built fvTy gExample := by
  have h1 : Built fvTy gE1p.1 :=
    Built.insert "the_answer" (Built.new 0) (constCap_wf 42)
  have h2 : Built fvTy gE2p.1 := Built.insert "add" h1 addCap_wf
  have h3 : Built fvTy gE3p.1 := Built.insert "mul" h2 mulCap_wf
  have h4 : Built fvTy gE4 := Built.addInput hAdd hMul h3
  have h5 : Built fvTy gE5 := Built.addInput hAdd hConst h4
  have h6 : Built fvTy gE6 := Built.addInput hMul hConst h5
  have h7 : Built fvTy gE7 := Built.connect hMul h6
  exact Built.setOutput hAdd h7

/-- C9: neither compilation path mutates the builder, so recompiling the
builder a `build` returns yields the identical executor; a successfully
built executor's clone is the executor itself (its scratch cells are the
capability defaults, which is exactly what `clone` resets to); and the
executor's `compute` gives the very same outcome from any typed scratch
state, so runs of the original and of a clone can never influence one
another's outputs. -/
theorem claim_C9 {V : Type} (tyOf : V → TyId) (g : Graph V) (In Out : TyId)
    (h : NodeHandle) (cg : ComputeGraphM V) (hb : Built tyOf g)
    (hok : (g.build In Out).1 = .ok cg ∨
      (g.build_for_node In Out h).1 = .ok cg) :
    (g.build In Out).2 = g ∧ (g.build_for_node In Out h).2 = g ∧
    ((g.build In Out).2.build In Out).1 = (g.build In Out).1 ∧
    cg.clone = cg ∧
    ∀ input, tyOf input = In →
      ∀ cells, cells.length = cg.nodes.length →
        (∀ j (hc : j < cells.length) (hn : j < cg.nodes.length),
          tyOf (cells.get ⟨j, hc⟩) = (cg.nodes.get ⟨j, hn⟩).func.outTy) →
        ComputeGraphM.compute tyOf { cg with outputs := cells } input =
          cg.compute tyOf input := by
  obtain ⟨root, hkey⟩ := build_ok_elim hok
  have hwf : CGWF tyOf cg := Graph.build_cgwf (built_inv hb) hkey
  obtain ⟨root_nd, order, cns, cnt, hf, hout, hord, hbn, hnum, hcg⟩ :=
    Graph.build_for_node_key_ok hkey
  refine ⟨build_snd g In Out, build_for_node_snd g In Out h, ?_, ?_, ?_⟩
  · rw [build_snd g In Out]
  · rw [hcg]
    rfl
  · intro input hin cells hlen hty
    have hin' : tyOf input = cg.inTyPh := by
      rw [hcg]
      exact hin
    exact (compute_master hwf input hin' cells hlen hty).1

/-- C9 witness at the example graph and its compiled executor. -/
theorem claim_C9_witness :
    (gExample.build floatTy floatTy).2 = gExample ∧
    (gExample.build_for_node floatTy floatTy hAdd).2 = gExample ∧
    ((gExample.build floatTy floatTy).2.build floatTy floatTy).1 =
      (gExample.build floatTy floatTy).1 ∧
    cgExample.clone = cgExample ∧
    ∀ input, fvTy input = floatTy →
      ∀ cells, cells.length = cgExample.nodes.length →
        (∀ j (hc : j < cells.length) (hn : j < cgExample.nodes.length),
          fvTy (cells.get ⟨j, hc⟩) =
            (cgExample.nodes.get ⟨j, hn⟩).func.outTy) →
        ComputeGraphM.compute fvTy { cgExample with outputs := cells } input =
          cgExample.compute fvTy input :=
  claim_C9 fvTy gExample floatTy floatTy hAdd cgExample built_gExample
    (Or.inl (by rfl))

/-- C10: an executor produced by a successful `build` or `build_for_node`
from an API-built graph never engine-panics on a correctly typed input:
every internal downcast succeeds and no scratch-cell borrow conflict
occurs (each node reads only strictly earlier cells and writes its own),
and a returned output value has the requested output type. -/
theorem claim_C10 {V : Type} (tyOf : V → TyId) (g : Graph V) (In Out : TyId)
    (h : NodeHandle) (cg : ComputeGraphM V) (input : V) (hb : Built tyOf g)
    (hok : (g.build In Out).1 = .ok cg ∨
      (g.build_for_node In Out h).1 = .ok cg)
    (hin : tyOf input = In) :
    cg.compute tyOf input ≠ .enginePanic ∧
      ∀ cells out, cg.compute tyOf input = .ok cells out → tyOf out = Out := by
  obtain ⟨root, hkey⟩ := build_ok_elim hok
  have hwf : CGWF tyOf cg := Graph.build_cgwf (built_inv hb) hkey
  obtain ⟨root_nd, order, cns, cnt, hf, hout, hord, hbn, hnum, hcg⟩ :=
    Graph.build_for_node_key_ok hkey
  have hin' : tyOf input = cg.inTyPh := by
    rw [hcg]
    exact hin
  refine ⟨(compute_master hwf input hin' cg.outputs hwf.len_eq
    hwf.cells_typed.2).2, ?_⟩
  intro cells out hok'
  have hlast := Graph.compute_ok_last tyOf cg input hok'
  rw [hlast.2, hcg]
  rfl

/-- C10 witness: the executor compiled from the example graph run on the
float `7`. -/
theorem claim_C10_witness :
    cgExample.compute fvTy (FV.f 7) ≠ .enginePanic ∧
      ∀ cells out, cgExample.compute fvTy (FV.f 7) = .ok cells out →
        fvTy out = floatTy :=
  claim_C10 fvTy gExample floatTy floatTy hAdd cgExample (FV.f 7)
    built_gExample (Or.inl (by rfl)) (by rfl)

end CG
